import Mathlib

/-
  Verification development for the tennis-lab path-enumeration and
  probability-aggregation engine.

  The Python sources are shallowly embedded below:
  * score state machines: `src/src/tennis_lab/core/match_format.py`,
    `src/src/core/game_score.py`, `src/src/core/tiebreak_score.py`,
    `src/src/tennis_lab/core/set_score.py`, `src/src/core/match_score.py`
    (the `tennis_lab.core` builds of GameScore / TiebreakScore / MatchScore
    are not present in the source tree; their semantics are taken from the
    twin implementations in `src/src/core/...` which are, per the spec's
    design notes, the same model, and are corroborated by the unit tests in
    `tests/core/...`);
  * path generators: `game_path.py`, `tiebreak_path.py`, `set_path.py`,
    `match_path.py` (all four share one recursion shape, embedded once as a
    generic engine and instantiated per level);
  * probability evaluators / aggregators: `game_probability.py`,
    `tiebreak_probability.py`, `set_probability.py`.

  Probabilities are modelled over `ℚ` (the Python code uses floats; every
  claim checked here is about the algebraic value computed).  The Python
  recursion `_extendPaths` terminates only when a pass adds no path; the
  embedding makes the same loop fuelled (`extendPaths`), and theorems either
  hold for every fuel or come with the stabilisation fact for the fuel used.
-/

namespace TennisLab

/-- SetEnding enum from `tennis_lab/core/match_format.py`. -/
inductive SetEnding where
  | advantage
  | tiebreak
  | supertiebreak
deriving DecidableEq, Repr

/-- MatchFormat from `tennis_lab/core/match_format.py` (fields used by the
probability engine). -/
structure MatchFormat where
  bestOfSets : Option ℕ
  matchTiebreak : Bool
  setLength : ℕ
  setEnding : SetEnding
  finalSetEnding : SetEnding
  noAdRule : Bool
  capPoints : Bool
deriving DecidableEq, Repr

/-- The default `MatchFormat()` (capPoints defaults to True). -/
def defaultFormat : MatchFormat :=
  { bestOfSets := none, matchTiebreak := false, setLength := 6,
    setEnding := .tiebreak, finalSetEnding := .tiebreak,
    noAdRule := false, capPoints := true }

/-- Number of points needed to win a game (`GameScore.NUM_POINTS_WIN`). -/
def NUM_POINTS_WIN : ℕ := 4

/-- GameScore state: the two point counts plus the match format
(`game_score.py`). -/
structure GameScore where
  p1 : ℕ
  p2 : ℕ
  fmt : MatchFormat
deriving DecidableEq, Repr

/-- `GameScore.isDeuce`: equal counts at or above `NUM_POINTS_WIN - 1`. -/
def GameScore.isDeuce (s : GameScore) : Bool :=
  s.p1 == s.p2 && decide (NUM_POINTS_WIN - 1 ≤ s.p1)

/-- `GameScore._playerWon`: no-ad rule needs exactly `NUM_POINTS_WIN` with the
opponent below it; standard rule needs at least `NUM_POINTS_WIN` and a lead
greater than one. -/
def GameScore.playerWon (s : GameScore) (player : ℕ) : Bool :=
  if s.fmt.noAdRule then
    if player == 1 then s.p1 == NUM_POINTS_WIN && decide (s.p2 < NUM_POINTS_WIN)
    else s.p2 == NUM_POINTS_WIN && decide (s.p1 < NUM_POINTS_WIN)
  else
    if player == 1 then decide (NUM_POINTS_WIN ≤ s.p1) && decide (s.p2 + 1 < s.p1)
    else decide (NUM_POINTS_WIN ≤ s.p2) && decide (s.p1 + 1 < s.p2)

/-- `GameScore.isFinal`. -/
def GameScore.isFinal (s : GameScore) : Bool :=
  s.playerWon 1 || s.playerWon 2

/-- `GameScore.winner`. -/
def GameScore.winner (s : GameScore) : Option ℕ :=
  if s.playerWon 1 then some 1 else if s.playerWon 2 then some 2 else none

/-- `GameScore.playerWithAdvantage`. -/
def GameScore.playerWithAdvantage (s : GameScore) : Option ℕ :=
  if s.p1 == s.p2 + 1 && decide (NUM_POINTS_WIN ≤ s.p1) then some 1
  else if s.p2 == s.p1 + 1 && decide (NUM_POINTS_WIN ≤ s.p2) then some 2
  else none

/-- `GameScore._cap_score`: all deuces become 3-3, advantages 4-3 / 3-4. -/
def GameScore.capScore (s : GameScore) : GameScore :=
  if s.isDeuce then ⟨NUM_POINTS_WIN - 1, NUM_POINTS_WIN - 1, s.fmt⟩
  else if s.playerWithAdvantage == some 1 then ⟨NUM_POINTS_WIN, NUM_POINTS_WIN - 1, s.fmt⟩
  else if s.playerWithAdvantage == some 2 then ⟨NUM_POINTS_WIN - 1, NUM_POINTS_WIN, s.fmt⟩
  else s

/-- `GameScore.__init__` post-processing: cap the score when the format has
`capPoints` (validation errors are modelled separately by `isValidScore`). -/
def GameScore.build (a b : ℕ) (fmt : MatchFormat) : GameScore :=
  if fmt.capPoints then GameScore.capScore ⟨a, b, fmt⟩ else ⟨a, b, fmt⟩

/-- `GameScore.nextScores` for a non-final score (the generator only calls it
on non-final scores; `None` from the Python code is not reachable there). -/
def GameScore.nextScores (s : GameScore) : GameScore × GameScore :=
  (GameScore.build (s.p1 + 1) s.p2 s.fmt, GameScore.build s.p1 (s.p2 + 1) s.fmt)

/-- `GameScore.asPoints(pov)`. -/
def GameScore.asPoints (s : GameScore) (pov : ℕ) : ℕ × ℕ :=
  if pov == 1 then (s.p1, s.p2) else (s.p2, s.p1)

/-- `GameScore._isValidScore` (static; does not look at the format). -/
def GameScore.isValidScore (a b : ℕ) : Bool :=
  (decide (a ≤ NUM_POINTS_WIN - 1) && decide (b ≤ NUM_POINTS_WIN - 1)) ||
  (a == NUM_POINTS_WIN && decide (b ≤ NUM_POINTS_WIN - 2)) ||
  (b == NUM_POINTS_WIN && decide (a ≤ NUM_POINTS_WIN - 2)) ||
  (decide (a - b ≤ 2) && decide (b - a ≤ 2))

/-- Cutoff used by `GamePath._incrementPaths`: deuce paths stop unless the
game is played without advantages. -/
def gameStop (s : GameScore) : Bool :=
  s.isDeuce && !s.fmt.noAdRule

/-- TiebreakScore state (`tiebreak_score.py`): counts plus the super flag. -/
structure TiebreakScore where
  p1 : ℕ
  p2 : ℕ
  isSuper : Bool
deriving DecidableEq, Repr

/-- `TiebreakScore.pointsToWin`: 10 for a super-tiebreak, else 7. -/
def TiebreakScore.pointsToWin (s : TiebreakScore) : ℕ :=
  if s.isSuper then 10 else 7

/-- `TiebreakScore.isDeuce`: equal counts at or above `pointsToWin - 1`. -/
def TiebreakScore.isDeuce (s : TiebreakScore) : Bool :=
  s.p1 == s.p2 && decide (s.pointsToWin - 1 ≤ s.p1)

/-- `TiebreakScore._playerWon`: at least `pointsToWin` and a lead above one. -/
def TiebreakScore.playerWon (s : TiebreakScore) (player : ℕ) : Bool :=
  if player == 1 then decide (s.pointsToWin ≤ s.p1) && decide (s.p2 + 1 < s.p1)
  else decide (s.pointsToWin ≤ s.p2) && decide (s.p1 + 1 < s.p2)

/-- `TiebreakScore.isFinal`. -/
def TiebreakScore.isFinal (s : TiebreakScore) : Bool :=
  s.playerWon 1 || s.playerWon 2

/-- `TiebreakScore.winner`. -/
def TiebreakScore.winner (s : TiebreakScore) : Option ℕ :=
  if s.playerWon 1 then some 1 else if s.playerWon 2 then some 2 else none

/-- `TiebreakScore.nextScores` for a non-final score. -/
def TiebreakScore.nextScores (s : TiebreakScore) : TiebreakScore × TiebreakScore :=
  (⟨s.p1 + 1, s.p2, s.isSuper⟩, ⟨s.p1, s.p2 + 1, s.isSuper⟩)

/-- `TiebreakScore._isValidScore`. -/
def TiebreakScore.isValidScore (a b : ℕ) (isSuper : Bool) : Bool :=
  let pointsToWin : ℕ := if isSuper then 10 else 7
  (decide (a ≤ pointsToWin) && decide (b ≤ pointsToWin)) ||
  (decide (a - b ≤ 2) && decide (b - a ≤ 2))

/-- One `TiebreakPath.PathEntry`: the score and who serves the next point. -/
structure TBEntry where
  score : TiebreakScore
  playerServing : ℕ
deriving DecidableEq, Repr

/-- Cutoff used by `TiebreakPath._incrementPaths`: stop at the tie. -/
def tbStop (e : TBEntry) : Bool := e.score.isDeuce

/-- Final test lifted to tiebreak path entries. -/
def tbFinal (e : TBEntry) : Bool := e.score.isFinal

/-- `TiebreakPath.increment` next-entry computation: both successor scores get
the next server, which switches exactly when the number of points already
played is even (serve 1 point, then alternate every 2). -/
def tbNext (e : TBEntry) : TBEntry × TBEntry :=
  let ns := e.score.nextScores
  let pointsPlayed := e.score.p1 + e.score.p2
  let playerServingNext :=
    if pointsPlayed % 2 == 0 then 3 - e.playerServing else e.playerServing
  (⟨ns.1, playerServingNext⟩, ⟨ns.2, playerServingNext⟩)

/-- Games-level slice of `SetScore` (`tennis_lab/core/set_score.py`): game
counts, whether this is the final set, and the format.  The in-progress
sub-scores are irrelevant to set path generation, which the code only allows
from game boundaries. -/
structure SetScore where
  g1 : ℕ
  g2 : ℕ
  isFinalSet : Bool
  fmt : MatchFormat
deriving DecidableEq, Repr

/-- `SetScore.endsInTiebreak`: the relevant ending (final-set or not) is not
`ADVANTAGE`. -/
def SetScore.endsInTiebreak (s : SetScore) : Bool :=
  let ending := if s.isFinalSet then s.fmt.finalSetEnding else s.fmt.setEnding
  !(ending == SetEnding.advantage)

/-- `SetScore.isTied`: both game counts equal the set length. -/
def SetScore.isTied (s : SetScore) : Bool :=
  s.g1 == s.g2 && s.g1 == s.fmt.setLength

/-- `SetScore._playerWon`: win by two, or (in a tiebreak set) win the
tiebreak game at `setLength + 1` to `setLength`. -/
def SetScore.playerWon (s : SetScore) (player : ℕ) : Bool :=
  let playerGames := if player == 1 then s.g1 else s.g2
  let opponentGames := if player == 1 then s.g2 else s.g1
  let n := s.fmt.setLength
  let wonByTwo := decide (n ≤ playerGames) && decide (opponentGames + 2 ≤ playerGames)
  if s.endsInTiebreak then
    wonByTwo || (playerGames == n + 1 && opponentGames == n)
  else
    wonByTwo

/-- `SetScore.isFinal`. -/
def SetScore.isFinal (s : SetScore) : Bool :=
  s.playerWon 1 || s.playerWon 2

/-- `SetScore.winner`. -/
def SetScore.winner (s : SetScore) : Option ℕ :=
  if s.playerWon 1 then some 1 else if s.playerWon 2 then some 2 else none

/-- `SetScore.nextGameScores` for a non-final boundary score. -/
def SetScore.nextGameScores (s : SetScore) : SetScore × SetScore :=
  (⟨s.g1 + 1, s.g2, s.isFinalSet, s.fmt⟩, ⟨s.g1, s.g2 + 1, s.isFinalSet, s.fmt⟩)

/-- One `SetPath.PathEntry`: the set score and who serves the next game. -/
structure SetEntry where
  score : SetScore
  playerToServe : ℕ
deriving DecidableEq, Repr

/-- Cutoff used by `SetPath._incrementPaths`: stop at the tied score. -/
def setStop (e : SetEntry) : Bool := e.score.isTied

/-- Final test lifted to set path entries. -/
def setFinal (e : SetEntry) : Bool := e.score.isFinal

/-- `SetPath.increment` next-entry computation: serve alternates every game. -/
def setNext (e : SetEntry) : SetEntry × SetEntry :=
  let ns := e.score.nextGameScores
  (⟨ns.1, 3 - e.playerToServe⟩, ⟨ns.2, 3 - e.playerToServe⟩)

/-- Sets needed to win the match: `matchFormat.bestOfSets // 2 + 1`
(`match_score.py`; `bestOfSets` is always given for match scores). -/
def MatchFormat.setsToWin (fmt : MatchFormat) : ℕ :=
  fmt.bestOfSets.getD 0 / 2 + 1

/-- Sets-level slice of `MatchScore` (`match_score.py`): set counts plus the
format.  Match paths have set granularity and no set in progress. -/
structure MatchScore where
  s1 : ℕ
  s2 : ℕ
  fmt : MatchFormat
deriving DecidableEq, Repr

/-- `MatchScore._playerWon`: exactly `setsToWin` sets. -/
def MatchScore.playerWon (s : MatchScore) (player : ℕ) : Bool :=
  (if player == 1 then s.s1 else s.s2) == s.fmt.setsToWin

/-- `MatchScore.isFinal`. -/
def MatchScore.isFinal (s : MatchScore) : Bool :=
  s.playerWon 1 || s.playerWon 2

/-- `MatchScore.winner`. -/
def MatchScore.winner (s : MatchScore) : Option ℕ :=
  if s.playerWon 1 then some 1 else if s.playerWon 2 then some 2 else none

/-- `MatchScore.nextSetScores` for a non-final score. -/
def MatchScore.nextSetScores (s : MatchScore) : MatchScore × MatchScore :=
  (⟨s.s1 + 1, s.s2, s.fmt⟩, ⟨s.s1, s.s2 + 1, s.fmt⟩)

/-- `MatchScore._isValidScore` with `hasSetScore` recording whether a set
sub-score was supplied: set counts bounded by `setsToWin`, and no sub-score
on a final match. -/
def MatchScore.isValidScore (s1 s2 : ℕ) (hasSetScore : Bool) (fmt : MatchFormat) : Bool :=
  decide (s1 ≤ fmt.setsToWin) && decide (s2 ≤ fmt.setsToWin) &&
  (!(s1 == fmt.setsToWin || s2 == fmt.setsToWin) || !hasSetScore)

/-
  Generic path engine.  `GamePath`, `TiebreakPath`, `SetPath` and `MatchPath`
  all share the same recursion: grow every path whose last state is neither
  final nor at the cutoff by both successors, and stop when a pass adds no
  path.  A path is the list of its states, initial state first, current state
  last (the Python classes append to `scoreHistory`).
-/

/-- One step of `increment()` on a single path, with the cutoff test from
`_incrementPaths`: a stopped (cutoff or final) path is carried unchanged,
any other path is replaced by its two one-step extensions. -/
def incrementPath {σ : Type} (stop finals : σ → Bool) (next : σ → σ × σ)
    (path : List σ) : List (List σ) :=
  match path.getLast? with
  | none => [path]
  | some last =>
    if stop last then [path]
    else if finals last then [path]
    else [path ++ [(next last).1], path ++ [(next last).2]]

/-- `_incrementPaths`: one pass over the path list. -/
def incrementPaths {σ : Type} (stop finals : σ → Bool) (next : σ → σ × σ)
    (paths : List (List σ)) : List (List σ) :=
  paths.flatMap (incrementPath stop finals next)

/-- Pure iteration of `incrementPaths` (used to reason about the loop). -/
def stepN {σ : Type} (stop finals : σ → Bool) (next : σ → σ × σ) :
    ℕ → List (List σ) → List (List σ)
  | 0, paths => paths
  | n + 1, paths => stepN stop finals next n (incrementPaths stop finals next paths)

/-- `_extendPaths`, fuelled: repeat `_incrementPaths` until a pass leaves the
number of paths unchanged (exactly the Python termination test), or the fuel
runs out.  `extendPaths_eq_stepN` below shows the fuel is only a bound: the
result is the plain iterate. -/
def extendPaths {σ : Type} (stop finals : σ → Bool) (next : σ → σ × σ) :
    ℕ → List (List σ) → List (List σ)
  | 0, paths => paths
  | n + 1, paths =>
    let inc := incrementPaths stop finals next paths
    if inc.length = paths.length then paths
    else extendPaths stop finals next n inc

/-- Product of a function over consecutive elements of a list — the shape of
every `pathProbability` loop (`for i in range(1, len(scores))`). -/
def chainProd {σ : Type} (f : σ → σ → ℚ) : List σ → ℚ
  | [] => 1
  | [_] => 1
  | a :: b :: rest => f a b * chainProd f (b :: rest)

/-- Sum of path probability times outcome value over a path list — the shape
of every aggregator loop (`probWinGame += probPath * outcome`). -/
def sumOver {σ : Type} (factor : σ → σ → ℚ) (outcome : σ → ℚ) (dflt : σ)
    (paths : List (List σ)) : ℚ :=
  (paths.map fun path => chainProd factor path * outcome (path.getLast?.getD dflt)).sum

/-- `GamePath.generateAllPaths` (fuelled). -/
def GamePath.generateAllPaths (fuel : ℕ) (initialScore : GameScore) : List (List GameScore) :=
  extendPaths gameStop GameScore.isFinal GameScore.nextScores fuel [[initialScore]]

/-- Per-step factor of game `pathProbability`: the serving player's point-win
probability if that player's count increased, else its complement. -/
def gameStepFactor (playerServing : ℕ) (probWinPoint : ℚ) (prev curr : GameScore) : ℚ :=
  if decide ((prev.asPoints playerServing).1 < (curr.asPoints playerServing).1)
  then probWinPoint else 1 - probWinPoint

/-- `pathProbability` from `game_probability.py`. -/
def pathProbability (playerServing : ℕ) (probWinPoint : ℚ) (scores : List GameScore) : ℚ :=
  chainProd (gameStepFactor playerServing probWinPoint) scores

/-- Outcome value of a finished game path: the closed-form deuce formula on a
deuce, else 1 when the server won and 0 when the server lost. -/
def gameOutcome (playerServing : ℕ) (probWinPoint : ℚ) (s : GameScore) : ℚ :=
  if s.isDeuce then probWinPoint ^ 2 / (1 - 2 * probWinPoint * (1 - probWinPoint))
  else if s.winner == some playerServing then 1 else 0

/-- `probabilityServerWinsGame` (fuelled path generation). -/
def probabilityServerWinsGame (fuel : ℕ) (initScore : GameScore)
    (playerServing : ℕ) (probWinPoint : ℚ) : ℚ :=
  sumOver (gameStepFactor playerServing probWinPoint)
    (gameOutcome playerServing probWinPoint) initScore
    (GamePath.generateAllPaths fuel initScore)

/-- `TiebreakPath.generateAllPaths` (fuelled). -/
def TiebreakPath.generateAllPaths (fuel : ℕ) (initialScore : TiebreakScore)
    (playerServing : ℕ) : List (List TBEntry) :=
  extendPaths tbStop tbFinal tbNext fuel [[⟨initialScore, playerServing⟩]]

/-- Per-step factor of tiebreak `pathProbability`: decided by the server of
the transition (stored on the earlier entry) and whether Player 1's count
increased. -/
def tbStepFactor (probWinPointP1 probWinPointP2 : ℚ) (prev curr : TBEntry) : ℚ :=
  let P1wonPoint := decide (prev.score.p1 < curr.score.p1)
  if prev.playerServing == 1 then
    if P1wonPoint then probWinPointP1 else 1 - probWinPointP1
  else
    if !P1wonPoint then probWinPointP2 else 1 - probWinPointP2

/-- `pathProbability` from `tiebreak_probability.py`. -/
def tbPathProbability (probWinPointP1 probWinPointP2 : ℚ) (entries : List TBEntry) : ℚ :=
  chainProd (tbStepFactor probWinPointP1 probWinPointP2) entries

/-- `_probabilityP1WinsTie`, including the `eps = 1e-10` degenerate branch. -/
def probabilityP1WinsTie (probWinPointP1 probWinPointP2 : ℚ) : ℚ :=
  let eps : ℚ := 1 / 10 ^ 10
  if |1 - probWinPointP1| < eps ∧ |1 - probWinPointP2| < eps then 1 / 2
  else
    probWinPointP1 * (1 - probWinPointP2) /
      (1 - probWinPointP1 * probWinPointP2 - (1 - probWinPointP1) * (1 - probWinPointP2))

/-- Outcome value of a finished tiebreak path: `_probabilityP1WinsTie` on the
tie, else 1 exactly when Player 1 won. -/
def tbOutcome (probWinPointP1 probWinPointP2 : ℚ) (e : TBEntry) : ℚ :=
  if e.score.isDeuce then probabilityP1WinsTie probWinPointP1 probWinPointP2
  else if e.score.winner == some 1 then 1 else 0

/-- `probabilityP1WinsTiebreak` (fuelled path generation). -/
def probabilityP1WinsTiebreak (fuel : ℕ) (initScore : TiebreakScore)
    (playerServing : ℕ) (probWinPointP1 probWinPointP2 : ℚ) : ℚ :=
  sumOver (tbStepFactor probWinPointP1 probWinPointP2)
    (tbOutcome probWinPointP1 probWinPointP2) ⟨initScore, playerServing⟩
    (TiebreakPath.generateAllPaths fuel initScore playerServing)

/-- `SetPath.generateAllPaths` (fuelled). -/
def SetPath.generateAllPaths (fuel : ℕ) (initialScore : SetScore)
    (playerToServe : ℕ) : List (List SetEntry) :=
  extendPaths setStop setFinal setNext fuel [[⟨initialScore, playerToServe⟩]]

/-- The blank game used by set `pathProbability`: `GameScore(0, 0)` with the
default format (`set_probability.py`, line 60). -/
def blankGame : GameScore := GameScore.build 0 0 defaultFormat

/-- Fuel that stabilises game path generation from any valid score. -/
def gameFuel : ℕ := 9

/-- The game-win transition probability used at set level: the game engine
run from a blank game with Player 1 serving (which player serves a blank game
does not matter). -/
def probWinGameFromBlank (p : ℚ) : ℚ :=
  probabilityServerWinsGame gameFuel blankGame 1 p

/-- Per-step factor of set `pathProbability`: the serving player's
game-win probability (derived from that player's point probability) if that
player's game count increased, else its complement. -/
def setStepFactor (probWinPointP1 probWinPointP2 : ℚ) (prev curr : SetEntry) : ℚ :=
  let P1wonGame := decide (prev.score.g1 < curr.score.g1)
  if prev.playerToServe == 1 then
    let probWinGameP1 := probWinGameFromBlank probWinPointP1
    if P1wonGame then probWinGameP1 else 1 - probWinGameP1
  else
    let probWinGameP2 := probWinGameFromBlank probWinPointP2
    if !P1wonGame then probWinGameP2 else 1 - probWinGameP2

/-- `pathProbability` from `set_probability.py`. -/
def setPathProbability (probWinPointP1 probWinPointP2 : ℚ) (entries : List SetEntry) : ℚ :=
  chainProd (setStepFactor probWinPointP1 probWinPointP2) entries

/-- The blank regular tiebreak used for tied set paths:
`TiebreakScore(0, 0, isSuper=False)`. -/
def blankTiebreak : TiebreakScore := ⟨0, 0, false⟩

/-- Fuel that stabilises tiebreak path generation from any valid score. -/
def tbFuel : ℕ := 14

/-- Outcome value of a finished set path: the tiebreak engine from a blank
tiebreak (served by the player due to serve) on a tie, else 1 exactly when
Player 1 won the set. -/
def setOutcome (probWinPointP1 probWinPointP2 : ℚ) (e : SetEntry) : ℚ :=
  if e.score.isTied then
    probabilityP1WinsTiebreak tbFuel blankTiebreak e.playerToServe
      probWinPointP1 probWinPointP2
  else if e.score.winner == some 1 then 1 else 0

/-- `_probabilityP1WinsSetFromGameBoundary` (fuelled path generation). -/
def probabilityP1WinsSetFromGameBoundary (fuel : ℕ) (initScore : SetScore)
    (playerServing : ℕ) (probWinPointP1 probWinPointP2 : ℚ) : ℚ :=
  sumOver (setStepFactor probWinPointP1 probWinPointP2)
    (setOutcome probWinPointP1 probWinPointP2) ⟨initScore, playerServing⟩
    (SetPath.generateAllPaths fuel initScore playerServing)

/-- The mid-game branch of `probabilityP1WinsSet` (case 1): condition on the
current game's outcome, hand the serve to the other player, and recurse to
the two game-boundary scores. -/
def probabilityP1WinsSetMidGame (fuel : ℕ) (initScore : SetScore)
    (gameScore : GameScore) (playerServing : ℕ) (probWinPointP1 probWinPointP2 : ℚ) : ℚ :=
  let probWinPoint := if playerServing == 1 then probWinPointP1 else probWinPointP2
  let probServerWinsGame := probabilityServerWinsGame gameFuel gameScore playerServing probWinPoint
  let probP1WinsGame := if playerServing == 1 then probServerWinsGame else 1 - probServerWinsGame
  let nextServer := 3 - playerServing
  let scoreIfWon : SetScore := ⟨initScore.g1 + 1, initScore.g2, initScore.isFinalSet, initScore.fmt⟩
  let scoreIfLost : SetScore := ⟨initScore.g1, initScore.g2 + 1, initScore.isFinalSet, initScore.fmt⟩
  probP1WinsGame *
      probabilityP1WinsSetFromGameBoundary fuel scoreIfWon nextServer probWinPointP1 probWinPointP2 +
    (1 - probP1WinsGame) *
      probabilityP1WinsSetFromGameBoundary fuel scoreIfLost nextServer probWinPointP1 probWinPointP2

/-- `MatchPath.generateAllPaths` (fuelled; match paths have no cutoff). -/
def MatchPath.generateAllPaths (fuel : ℕ) (initialScore : MatchScore) : List (List MatchScore) :=
  extendPaths (fun _ => false) MatchScore.isFinal MatchScore.nextSetScores fuel [[initialScore]]

/-
  Reachability: the scores a level can actually pass through, i.e. everything
  obtainable from 0-0 by single outcomes that never step off a final score.
  This is the invariant §3 of the spec demands of construction-time
  validation.
-/

/-- Reachability of a count pair from 0-0 under a final-score predicate:
record outcomes one at a time, never from a final score. -/
inductive Reach (finals : ℕ → ℕ → Bool) : ℕ → ℕ → Prop where
  | base : Reach finals 0 0
  | winP1 {a b : ℕ} : Reach finals a b → finals a b = false → Reach finals (a + 1) b
  | winP2 {a b : ℕ} : Reach finals a b → finals a b = false → Reach finals a (b + 1)

/-- The standard-rule game termination test on raw counts. -/
def gameFinalStd (a b : ℕ) : Bool :=
  (GameScore.mk a b { defaultFormat with noAdRule := false }).isFinal

/-- The no-ad game termination test on raw counts. -/
def gameFinalNoAd (a b : ℕ) : Bool :=
  (GameScore.mk a b { defaultFormat with noAdRule := true }).isFinal

/-- Tiebreak termination test on raw counts. -/
def tbFinalAt (isSuper : Bool) (a b : ℕ) : Bool :=
  (TiebreakScore.mk a b isSuper).isFinal

/-- Match termination test on raw set counts. -/
def matchFinalAt (fmt : MatchFormat) (a b : ℕ) : Bool :=
  (MatchScore.mk a b fmt).isFinal

/-- Win-by-two validity shape shared by `GameScore._isValidScore` (threshold
4) and `TiebreakScore._isValidScore` (threshold 7 or 10): inside the box
bounded by the threshold, or within two points of each other. -/
def winBy2Valid (n a b : ℕ) : Bool :=
  (decide (a ≤ n) && decide (b ≤ n)) || (decide (a - b ≤ 2) && decide (b - a ≤ 2))

/-- Win-by-two termination shape at threshold `n`: at least `n` points and a
lead of at least two. -/
def winBy2Final (n a b : ℕ) : Bool :=
  (decide (n ≤ a) && decide (b + 2 ≤ a)) || (decide (n ≤ b) && decide (a + 2 ≤ b))

/-- Bound on how many increment passes game path generation can need from a
given score before every path is final or at the cutoff (standard scoring,
no capping): stopped scores need none, scores in the unbounded deuce region
need one, and box scores are bounded by their total. -/
def gameDepth (s : GameScore) : ℕ :=
  if gameStop s || s.isFinal then 0
  else if 3 ≤ s.p1 ∧ 3 ≤ s.p2 then 1
  else 8 - (s.p1 + s.p2)

/-- Swap the two players of a game score. -/
def GameScore.swap (s : GameScore) : GameScore := ⟨s.p2, s.p1, s.fmt⟩

/-- Size of the path set generated from a seed within `fuel` passes, computed
without materialising the paths (`length_stepN_seed` proves it equal to the
length of the generated list). -/
def countPaths {σ : Type} (stop finals : σ → Bool) (next : σ → σ × σ) : ℕ → σ → ℕ
  | 0, _ => 1
  | n + 1, x =>
    if stop x || finals x then 1
    else countPaths stop finals next n (next x).1 + countPaths stop finals next n (next x).2

/-
  Theorems.  First the engine lemmas: the fuelled loop is the plain iterate,
  iteration commutes with list append and with a common first score, and the
  aggregation sum satisfies the one-step unrolling used throughout.
-/

section EngineLemmas

variable {σ : Type} {stop finals : σ → Bool} {next : σ → σ × σ}

theorem incrementPath_of_stopped {path : List σ} {last : σ}
    (hl : path.getLast? = some last) (h : stop last = true ∨ finals last = true) :
    incrementPath stop finals next path = [path] := by
  unfold incrementPath
  rw [hl]
  rcases h with h | h
  · simp [h]
  · by_cases hs : stop last <;> simp [hs, h]

theorem incrementPath_of_active {path : List σ} {last : σ}
    (hl : path.getLast? = some last) (hs : stop last = false) (hf : finals last = false) :
    incrementPath stop finals next path =
      [path ++ [(next last).1], path ++ [(next last).2]] := by
  unfold incrementPath
  rw [hl]
  simp [hs, hf]

theorem incrementPath_shape (path : List σ) :
    incrementPath stop finals next path = [path] ∨
      ∃ a b, incrementPath stop finals next path = [path ++ [a], path ++ [b]] := by
  cases hl : path.getLast? with
  | none => left; unfold incrementPath; rw [hl]
  | some last =>
    by_cases hs : stop last = true
    · exact Or.inl (incrementPath_of_stopped hl (Or.inl hs))
    · by_cases hf : finals last = true
      · exact Or.inl (incrementPath_of_stopped hl (Or.inr hf))
      · exact Or.inr ⟨(next last).1, (next last).2,
          incrementPath_of_active hl (by simp [hs]) (by simp [hf])⟩

theorem incrementPaths_append (l₁ l₂ : List (List σ)) :
    incrementPaths stop finals next (l₁ ++ l₂) =
      incrementPaths stop finals next l₁ ++ incrementPaths stop finals next l₂ := by
  unfold incrementPaths
  exact List.flatMap_append ..

theorem length_le_incrementPaths (l : List (List σ)) :
    l.length ≤ (incrementPaths stop finals next l).length := by
  induction l with
  | nil => simp [incrementPaths]
  | cons p l ih =>
    have : incrementPaths stop finals next (p :: l) =
        incrementPath stop finals next p ++ incrementPaths stop finals next l := rfl
    rw [this, List.length_append, List.length_cons]
    rcases @incrementPath_shape σ stop finals next p with h | ⟨a, b, h⟩
    · rw [h]; simp only [List.length_singleton]; omega
    · rw [h]; simp only [List.length_cons, List.length_singleton]; omega

theorem incrementPaths_of_length_eq {l : List (List σ)}
    (h : (incrementPaths stop finals next l).length = l.length) :
    incrementPaths stop finals next l = l := by
  induction l with
  | nil => rfl
  | cons p l ih =>
    have hsplit : incrementPaths stop finals next (p :: l) =
        incrementPath stop finals next p ++ incrementPaths stop finals next l := rfl
    rcases @incrementPath_shape σ stop finals next p with hp | ⟨a, b, hp⟩
    · have hlen : (incrementPaths stop finals next l).length = l.length := by
        rw [hsplit, hp] at h
        simpa using h
      rw [hsplit, hp, ih hlen]
      rfl
    · exfalso
      have hle := @length_le_incrementPaths σ stop finals next l
      rw [hsplit, hp] at h
      simp only [List.length_append, List.length_cons, List.length_singleton] at h
      omega

theorem stepN_of_stable {l : List (List σ)}
    (h : incrementPaths stop finals next l = l) (n : ℕ) :
    stepN stop finals next n l = l := by
  induction n with
  | zero => rfl
  | succ n ih => rw [stepN, h]; exact ih

theorem extendPaths_eq_stepN (fuel : ℕ) (l : List (List σ)) :
    extendPaths stop finals next fuel l = stepN stop finals next fuel l := by
  induction fuel generalizing l with
  | zero => rfl
  | succ n ih =>
    rw [extendPaths, stepN]
    by_cases h : (incrementPaths stop finals next l).length = l.length
    · have hst := incrementPaths_of_length_eq h
      simp only [h, if_true]
      rw [hst, stepN_of_stable hst]
    · simp only [h, if_false]
      exact ih _

theorem stepN_append (n : ℕ) (l₁ l₂ : List (List σ)) :
    stepN stop finals next n (l₁ ++ l₂) =
      stepN stop finals next n l₁ ++ stepN stop finals next n l₂ := by
  induction n generalizing l₁ l₂ with
  | zero => rfl
  | succ n ih => rw [stepN, incrementPaths_append, ih]; rfl

theorem incrementPaths_nonempty {l : List (List σ)}
    (h : ∀ p ∈ l, p ≠ []) :
    ∀ p ∈ incrementPaths stop finals next l, p ≠ [] := by
  intro p hp
  unfold incrementPaths at hp
  rcases List.mem_flatMap.mp hp with ⟨q, hq, hpq⟩
  rcases @incrementPath_shape σ stop finals next q with hs | ⟨a, b, hs⟩
  · rw [hs] at hpq
    simp only [List.mem_singleton] at hpq
    exact hpq ▸ h q hq
  · rw [hs] at hpq
    simp only [List.mem_cons, List.mem_singleton, List.not_mem_nil, or_false] at hpq
    rcases hpq with rfl | rfl <;> simp

theorem incrementPath_cons {p : List σ} (c : σ) (h : p ≠ []) :
    incrementPath stop finals next (c :: p) =
      (incrementPath stop finals next p).map (fun q => c :: q) := by
  have hex : ∃ y, p.getLast? = some y := by
    cases hx : p.getLast? with
    | none => exact absurd (List.getLast?_eq_none_iff.mp hx) h
    | some y => exact ⟨y, rfl⟩
  obtain ⟨last, hl⟩ := hex
  have hcl : (c :: p).getLast? = some last := by
    cases p with
    | nil => exact absurd rfl h
    | cons b t => rw [List.getLast?_cons_cons]; exact hl
  by_cases hs : stop last
  · rw [incrementPath_of_stopped hcl (Or.inl hs), incrementPath_of_stopped hl (Or.inl hs)]
    rfl
  · by_cases hf : finals last
    · rw [incrementPath_of_stopped hcl (Or.inr hf), incrementPath_of_stopped hl (Or.inr hf)]
      rfl
    · rw [incrementPath_of_active hcl (by simp [hs]) (by simp [hf]),
        incrementPath_of_active hl (by simp [hs]) (by simp [hf])]
      simp

theorem incrementPaths_map_cons {l : List (List σ)} (c : σ) (h : ∀ p ∈ l, p ≠ []) :
    incrementPaths stop finals next (l.map (fun q => c :: q)) =
      (incrementPaths stop finals next l).map (fun q => c :: q) := by
  induction l with
  | nil => rfl
  | cons p l ih =>
    have hrec : incrementPaths stop finals next (p :: l) =
        incrementPath stop finals next p ++ incrementPaths stop finals next l := rfl
    have hrec2 : incrementPaths stop finals next ((p :: l).map (fun q => c :: q)) =
        incrementPath stop finals next (c :: p) ++
          incrementPaths stop finals next (l.map (fun q => c :: q)) := rfl
    rw [hrec2, incrementPath_cons c (h p (by simp)), ih (fun q hq => h q (by simp [hq])),
      hrec, List.map_append]

theorem stepN_map_cons (n : ℕ) {l : List (List σ)} (c : σ) (h : ∀ p ∈ l, p ≠ []) :
    stepN stop finals next n (l.map (fun q => c :: q)) =
      (stepN stop finals next n l).map (fun q => c :: q) := by
  induction n generalizing l with
  | zero => rfl
  | succ n ih =>
    rw [stepN, incrementPaths_map_cons c h, stepN]
    exact ih (incrementPaths_nonempty h)

theorem incrementPaths_seed_active {x : σ} (hs : stop x = false) (hf : finals x = false) :
    incrementPaths stop finals next [[x]] = [[x, (next x).1], [x, (next x).2]] := by
  have : incrementPaths stop finals next [[x]] = incrementPath stop finals next [x] := by
    simp [incrementPaths]
  rw [this, incrementPath_of_active (by rfl) hs hf]
  rfl

theorem stepN_seed_stopped {x : σ} (h : stop x = true ∨ finals x = true) (n : ℕ) :
    stepN stop finals next n [[x]] = [[x]] := by
  apply stepN_of_stable
  have : incrementPaths stop finals next [[x]] = incrementPath stop finals next [x] := by
    simp [incrementPaths]
  rw [this, incrementPath_of_stopped (by rfl) h]

theorem stepN_seed_decomp {x : σ} (hs : stop x = false) (hf : finals x = false) (n : ℕ) :
    stepN stop finals next (n + 1) [[x]] =
      (stepN stop finals next n [[(next x).1]]).map (fun q => x :: q) ++
        (stepN stop finals next n [[(next x).2]]).map (fun q => x :: q) := by
  rw [stepN, incrementPaths_seed_active hs hf]
  have h1 : ([x, (next x).1] : List σ) :: [[x, (next x).2]] =
      ([[(next x).1]].map fun q => x :: q) ++ ([[(next x).2]].map fun q => x :: q) := rfl
  rw [h1, stepN_append, stepN_map_cons n x (by simp), stepN_map_cons n x (by simp)]

theorem mem_stepN_seed {x : σ} {p : List σ} (n : ℕ)
    (hp : p ∈ stepN stop finals next n [[x]]) : p ≠ [] ∧ p.head? = some x := by
  induction n generalizing x with
  | zero =>
    simp only [stepN, List.mem_singleton] at hp
    subst hp; exact ⟨by simp, rfl⟩
  | succ n ih =>
    by_cases hst : stop x = true ∨ finals x = true
    · rw [stepN_seed_stopped hst] at hp
      simp only [List.mem_singleton] at hp
      subst hp; exact ⟨by simp, rfl⟩
    · push_neg at hst
      rw [stepN_seed_decomp (by simpa using hst.1) (by simpa using hst.2)] at hp
      rcases List.mem_append.mp hp with hmem | hmem <;>
      · rcases List.mem_map.mp hmem with ⟨q, _, rfl⟩
        exact ⟨by simp, rfl⟩

end EngineLemmas

section SumLemmas

variable {σ : Type} {stop finals : σ → Bool} {next : σ → σ × σ}
variable {f : σ → σ → ℚ} {o : σ → ℚ}

theorem chainProd_cons {p : List σ} {h : σ} (c : σ) (hh : p.head? = some h) :
    chainProd f (c :: p) = f c h * chainProd f p := by
  cases p with
  | nil => simp at hh
  | cons b t =>
    simp only [List.head?_cons, Option.some.injEq] at hh
    subst hh
    rfl

theorem sumOver_append (d : σ) (l₁ l₂ : List (List σ)) :
    sumOver f o d (l₁ ++ l₂) = sumOver f o d l₁ + sumOver f o d l₂ := by
  unfold sumOver
  rw [List.map_append, List.sum_append]

theorem sumOver_singleton (d : σ) (x : σ) :
    sumOver f o d [[x]] = o x := by
  unfold sumOver
  simp [chainProd]

theorem getLast?_cons_of_ne {p : List σ} (c : σ) (h : p ≠ []) :
    (c :: p).getLast? = p.getLast? := by
  cases p with
  | nil => exact absurd rfl h
  | cons b t => exact List.getLast?_cons_cons ..

theorem sumOver_map_cons {l : List (List σ)} (d : σ) (c h : σ)
    (hl : ∀ p ∈ l, p ≠ [] ∧ p.head? = some h) :
    sumOver f o d (l.map fun q => c :: q) = f c h * sumOver f o d l := by
  induction l with
  | nil => simp [sumOver]
  | cons p l ih =>
    have h1 : ((p :: l).map fun q => c :: q) = (c :: p) :: (l.map fun q => c :: q) := rfl
    have h2 : ((c :: p) :: (l.map fun q => c :: q) : List (List σ)) =
        [c :: p] ++ (l.map fun q => c :: q) := rfl
    have h3 : (p :: l : List (List σ)) = [p] ++ l := rfl
    rw [h1, h2, h3, sumOver_append, sumOver_append, ih (fun q hq => hl q (by simp [hq]))]
    have hp := hl p (by simp)
    have hlast : (c :: p).getLast? = p.getLast? := getLast?_cons_of_ne c hp.1
    unfold sumOver
    simp only [List.map_cons, List.map_nil, List.sum_cons, List.sum_nil, add_zero]
    rw [chainProd_cons c hp.2, hlast]
    ring

/-- Default-element irrelevance of `sumOver` on lists of nonempty paths. -/
theorem sumOver_dflt {l : List (List σ)} (d₁ d₂ : σ)
    (hl : ∀ p ∈ l, p ≠ []) :
    sumOver f o d₁ l = sumOver f o d₂ l := by
  unfold sumOver
  congr 1
  apply List.map_congr_left
  intro p hp
  have hex : ∃ y, p.getLast? = some y := by
    cases hx : p.getLast? with
    | none => exact absurd (List.getLast?_eq_none_iff.mp hx) (hl p hp)
    | some y => exact ⟨y, rfl⟩
  obtain ⟨y, hy⟩ := hex
  rw [hy]
  rfl

/-- A stopped seed yields the singleton path, so the aggregated sum is just
the outcome value of the seed. -/
theorem sumAgg_stopped {x : σ} (d : σ) (h : stop x = true ∨ finals x = true) (n : ℕ) :
    sumOver f o d (stepN stop finals next n [[x]]) = o x := by
  rw [stepN_seed_stopped h, sumOver_singleton]

/-- One-step unrolling of the aggregated sum at an active seed: condition on
the first transition. -/
theorem sumAgg_step {x : σ} (d : σ) (hs : stop x = false) (hf : finals x = false) (n : ℕ) :
    sumOver f o d (stepN stop finals next (n + 1) [[x]]) =
      f x (next x).1 * sumOver f o d (stepN stop finals next n [[(next x).1]]) +
        f x (next x).2 * sumOver f o d (stepN stop finals next n [[(next x).2]]) := by
  rw [stepN_seed_decomp hs hf, sumOver_append,
    sumOver_map_cons d x (next x).1 (fun p hp => mem_stepN_seed n hp),
    sumOver_map_cons d x (next x).2 (fun p hp => mem_stepN_seed n hp)]

/-- Partition of probability: if, on an invariant set of states, the two
transition factors of every active state sum to one, then the total
path-probability mass of the generated path set is exactly one, whatever the
fuel. -/
theorem sumAgg_partition (P : σ → Prop)
    (hnext : ∀ y, P y → P (next y).1 ∧ P (next y).2)
    (hf2 : ∀ y, P y → stop y = false → finals y = false →
      f y (next y).1 + f y (next y).2 = 1)
    {x : σ} (hx : P x) (d : σ) (n : ℕ) :
    sumOver f (fun _ => 1) d (stepN stop finals next n [[x]]) = 1 := by
  induction n generalizing x with
  | zero => rw [stepN, sumOver_singleton]
  | succ n ih =>
    by_cases hst : stop x = true ∨ finals x = true
    · rw [sumAgg_stopped d hst]
    · push_neg at hst
      have hs : stop x = false := by simpa using hst.1
      have hfin : finals x = false := by simpa using hst.2
      rw [sumAgg_step d hs hfin, ih (hnext x hx).1, ih (hnext x hx).2]
      have := hf2 x hx hs hfin
      linarith

/-- Range of the aggregated sum: on an invariant set of states, nonnegative
complementary factors and outcome values in `[0,1]` keep the aggregate in
`[0,1]`. -/
theorem sumAgg_range (P : σ → Prop)
    (hnext : ∀ y, P y → P (next y).1 ∧ P (next y).2)
    (hf2 : ∀ y, P y → stop y = false → finals y = false →
      0 ≤ f y (next y).1 ∧ 0 ≤ f y (next y).2 ∧ f y (next y).1 + f y (next y).2 = 1)
    (ho : ∀ y, P y → 0 ≤ o y ∧ o y ≤ 1)
    {x : σ} (hx : P x) (d : σ) (n : ℕ) :
    0 ≤ sumOver f o d (stepN stop finals next n [[x]]) ∧
      sumOver f o d (stepN stop finals next n [[x]]) ≤ 1 := by
  induction n generalizing x with
  | zero =>
    rw [stepN, sumOver_singleton]
    exact ho x hx
  | succ n ih =>
    by_cases hst : stop x = true ∨ finals x = true
    · rw [sumAgg_stopped d hst]
      exact ho x hx
    · push_neg at hst
      have hs : stop x = false := by simpa using hst.1
      have hfin : finals x = false := by simpa using hst.2
      rw [sumAgg_step d hs hfin]
      obtain ⟨hA1, hA2⟩ := ih (hnext x hx).1
      obtain ⟨hB1, hB2⟩ := ih (hnext x hx).2
      obtain ⟨hq1, hq2, hq3⟩ := hf2 x hx hs hfin
      constructor
      · positivity
      · nlinarith

end SumLemmas

section CountLemmas

variable {σ : Type} {stop finals : σ → Bool} {next : σ → σ × σ}

theorem stepN_succ_comm (n : ℕ) (l : List (List σ)) :
    stepN stop finals next (n + 1) l =
      incrementPaths stop finals next (stepN stop finals next n l) := by
  induction n generalizing l with
  | zero => rfl
  | succ n ih =>
    have h1 : stepN stop finals next (n + 1 + 1) l =
        stepN stop finals next (n + 1) (incrementPaths stop finals next l) := rfl
    rw [h1, ih, stepN]

theorem length_stepN_seed (n : ℕ) (x : σ) :
    (stepN stop finals next n [[x]]).length = countPaths stop finals next n x := by
  induction n generalizing x with
  | zero => rfl
  | succ n ih =>
    by_cases hst : stop x = true ∨ finals x = true
    · rw [stepN_seed_stopped hst]
      have : (stop x || finals x) = true := by
        rcases hst with h | h <;> simp [h]
      simp [countPaths, this]
    · push_neg at hst
      have hs : stop x = false := by simpa using hst.1
      have hf : finals x = false := by simpa using hst.2
      rw [stepN_seed_decomp hs hf]
      rw [List.length_append, List.length_map, List.length_map, ih, ih]
      simp [countPaths, hs, hf]

theorem stable_of_countPaths_eq {x : σ} {n : ℕ}
    (h : countPaths stop finals next (n + 1) x = countPaths stop finals next n x) :
    incrementPaths stop finals next (stepN stop finals next n [[x]]) =
      stepN stop finals next n [[x]] := by
  apply incrementPaths_of_length_eq
  rw [← stepN_succ_comm, length_stepN_seed, length_stepN_seed, h]

end CountLemmas

section GameBasics

theorem GameScore.capScore_fmt (s : GameScore) : s.capScore.fmt = s.fmt := by
  unfold GameScore.capScore
  split
  · rfl
  · split
    · rfl
    · split <;> rfl

theorem GameScore.build_fmt (a b : ℕ) (fmt : MatchFormat) :
    (GameScore.build a b fmt).fmt = fmt := by
  unfold GameScore.build
  split
  · exact GameScore.capScore_fmt _
  · rfl

theorem GameScore.build_no_cap {fmt : MatchFormat} (hcap : fmt.capPoints = false)
    (a b : ℕ) : GameScore.build a b fmt = ⟨a, b, fmt⟩ := by
  unfold GameScore.build
  simp [hcap]

theorem GameScore.not_deuce_of_final {s : GameScore} (h : s.isFinal = true) :
    s.isDeuce = false := by
  unfold GameScore.isFinal GameScore.playerWon at h
  unfold GameScore.isDeuce
  by_cases hna : s.fmt.noAdRule <;>
    simp [hna, NUM_POINTS_WIN] at h ⊢ <;> omega

theorem TiebreakScore.tbNotDeuce_of_final {t : TiebreakScore} (h : t.isFinal = true) :
    t.isDeuce = false := by
  unfold TiebreakScore.isFinal TiebreakScore.playerWon at h
  unfold TiebreakScore.isDeuce
  simp at h ⊢
  omega

theorem probabilityServerWinsGame_eq (fuel : ℕ) (s : GameScore) (srv : ℕ) (p : ℚ) :
    probabilityServerWinsGame fuel s srv p =
      sumOver (gameStepFactor srv p) (gameOutcome srv p) s
        (stepN gameStop GameScore.isFinal GameScore.nextScores fuel [[s]]) := by
  unfold probabilityServerWinsGame GamePath.generateAllPaths
  rw [extendPaths_eq_stepN]

theorem probabilityP1WinsTiebreak_eq (fuel : ℕ) (t : TiebreakScore) (srv : ℕ) (q1 q2 : ℚ) :
    probabilityP1WinsTiebreak fuel t srv q1 q2 =
      sumOver (tbStepFactor q1 q2) (tbOutcome q1 q2) ⟨t, srv⟩
        (stepN tbStop tbFinal tbNext fuel [[⟨t, srv⟩]]) := by
  unfold probabilityP1WinsTiebreak TiebreakPath.generateAllPaths
  rw [extendPaths_eq_stepN]

theorem probabilityP1WinsSetFromGameBoundary_eq (fuel : ℕ) (s : SetScore) (srv : ℕ)
    (q1 q2 : ℚ) :
    probabilityP1WinsSetFromGameBoundary fuel s srv q1 q2 =
      sumOver (setStepFactor q1 q2) (setOutcome q1 q2) ⟨s, srv⟩
        (stepN setStop setFinal setNext fuel [[⟨s, srv⟩]]) := by
  unfold probabilityP1WinsSetFromGameBoundary SetPath.generateAllPaths
  rw [extendPaths_eq_stepN]

end GameBasics

/-- Claim C2: path-count oracles.  `generateAllPaths` yields exactly 50 paths
from a blank game (standard format), 2508 from a blank regular tiebreak, 6
from a blank best-of-3 match and 20 from a blank best-of-5 match; in each
case the listed fuel has stabilised the loop (a further `_incrementPaths`
pass returns the list unchanged, which is the Python recursion's exit
condition). -/
theorem claim_C2 :
    (GamePath.generateAllPaths 9 blankGame).length = 50 ∧
    (TiebreakPath.generateAllPaths 14 blankTiebreak 1).length = 2508 ∧
    (MatchPath.generateAllPaths 5 ⟨0, 0, { defaultFormat with bestOfSets := some 3 }⟩).length = 6 ∧
    (MatchPath.generateAllPaths 7 ⟨0, 0, { defaultFormat with bestOfSets := some 5 }⟩).length = 20 ∧
    incrementPaths gameStop GameScore.isFinal GameScore.nextScores
        (GamePath.generateAllPaths 9 blankGame) = GamePath.generateAllPaths 9 blankGame ∧
    incrementPaths tbStop tbFinal tbNext (TiebreakPath.generateAllPaths 14 blankTiebreak 1) =
      TiebreakPath.generateAllPaths 14 blankTiebreak 1 ∧
    incrementPaths (fun _ => false) MatchScore.isFinal MatchScore.nextSetScores
        (MatchPath.generateAllPaths 5 ⟨0, 0, { defaultFormat with bestOfSets := some 3 }⟩) =
      MatchPath.generateAllPaths 5 ⟨0, 0, { defaultFormat with bestOfSets := some 3 }⟩ ∧
    incrementPaths (fun _ => false) MatchScore.isFinal MatchScore.nextSetScores
        (MatchPath.generateAllPaths 7 ⟨0, 0, { defaultFormat with bestOfSets := some 5 }⟩) =
      MatchPath.generateAllPaths 7 ⟨0, 0, { defaultFormat with bestOfSets := some 5 }⟩ := by
  unfold GamePath.generateAllPaths TiebreakPath.generateAllPaths MatchPath.generateAllPaths
  refine ⟨?_, ?_, ?_, ?_, ?_, ?_, ?_, ?_⟩
  · rw [extendPaths_eq_stepN, length_stepN_seed]; decide
  · rw [extendPaths_eq_stepN, length_stepN_seed]; decide
  · rw [extendPaths_eq_stepN, length_stepN_seed]; decide
  · rw [extendPaths_eq_stepN, length_stepN_seed]; decide
  · rw [extendPaths_eq_stepN]; exact stable_of_countPaths_eq (by decide)
  · rw [extendPaths_eq_stepN]; exact stable_of_countPaths_eq (by decide)
  · rw [extendPaths_eq_stepN]; exact stable_of_countPaths_eq (by decide)
  · rw [extendPaths_eq_stepN]; exact stable_of_countPaths_eq (by decide)

/-- Claim C7: terminal boundary exactness.  On an already-final initial score
the aggregator returns exactly 1 when the player of interest won and exactly
0 otherwise (game level: player of interest is the server; tiebreak level:
Player 1), with no error term, for every fuel. -/
theorem claim_C7 (fuel : ℕ) (playerServing : ℕ) (p q1 q2 : ℚ) :
    (∀ s : GameScore, s.isFinal = true →
      probabilityServerWinsGame fuel s playerServing p =
        if s.winner == some playerServing then 1 else 0) ∧
    (∀ t : TiebreakScore, t.isFinal = true →
      probabilityP1WinsTiebreak fuel t playerServing q1 q2 =
        if t.winner == some 1 then 1 else 0) := by
  constructor
  · intro s hfin
    rw [probabilityServerWinsGame_eq, sumAgg_stopped _ (Or.inr hfin)]
    unfold gameOutcome
    rw [GameScore.not_deuce_of_final hfin]
    simp
  · intro t hfin
    have hfin' : tbFinal ⟨t, playerServing⟩ = true := hfin
    rw [probabilityP1WinsTiebreak_eq, sumAgg_stopped _ (Or.inr hfin')]
    unfold tbOutcome
    have : (⟨t, playerServing⟩ : TBEntry).score = t := rfl
    rw [this, TiebreakScore.tbNotDeuce_of_final hfin]
    simp

/-- Witness for C7: a game already won 4-0 by the server has win probability
exactly 1. -/
theorem claim_C7_witness :
    probabilityServerWinsGame 9 (GameScore.build 4 0 defaultFormat) 1 (3/5) = 1 := by
  have h := (claim_C7 9 1 (3/5) (3/5) (3/5)).1 (GameScore.build 4 0 defaultFormat) (by decide)
  rw [h]
  have hw : (GameScore.build 4 0 defaultFormat).winner = some 1 := by decide
  simp [hw]

section Partition

theorem gameStepFactor_sum {y : GameScore} (hcap : y.fmt.capPoints = false)
    (srv : ℕ) (p : ℚ) :
    gameStepFactor srv p y y.nextScores.1 + gameStepFactor srv p y y.nextScores.2 = 1 := by
  unfold GameScore.nextScores
  rw [GameScore.build_no_cap hcap, GameScore.build_no_cap hcap]
  by_cases hsrv : srv = 1 <;>
    simp [gameStepFactor, GameScore.asPoints, hsrv]

/-- Claim C1 (amended to formats without point-capping): for every initial
score whose format does not cap points, the path probabilities returned by
`generateAllPaths` sum to exactly 1, for any server designation, any `p` in
`[0,1]` and any fuel — the paths partition the probability space. -/
theorem claim_C1 (fuel : ℕ) (initialScore : GameScore) (playerServing : ℕ) (p : ℚ)
    (_hval : GameScore.isValidScore initialScore.p1 initialScore.p2 = true)
    (_hp0 : 0 ≤ p) (_hp1 : p ≤ 1)
    (hcap : initialScore.fmt.capPoints = false) :
    ((GamePath.generateAllPaths fuel initialScore).map
      (pathProbability playerServing p)).sum = 1 := by
  have hmap : ((GamePath.generateAllPaths fuel initialScore).map
      (pathProbability playerServing p)).sum =
      sumOver (gameStepFactor playerServing p) (fun _ => 1) initialScore
        (stepN gameStop GameScore.isFinal GameScore.nextScores fuel [[initialScore]]) := by
    unfold GamePath.generateAllPaths sumOver pathProbability
    rw [extendPaths_eq_stepN]
    simp [mul_one]
  rw [hmap]
  exact sumAgg_partition (fun y => y.fmt = initialScore.fmt)
    (fun y hy => by
      constructor <;>
        simp [GameScore.nextScores, GameScore.build_fmt, hy])
    (fun y hy _ _ => gameStepFactor_sum (hy ▸ hcap) playerServing p)
    rfl initialScore fuel

/-- Witness for C1: from a blank game under the no-capping standard format,
with `p = 1/2`, the 50 path probabilities sum to exactly 1. -/
theorem claim_C1_witness :
    ((GamePath.generateAllPaths 9
        (GameScore.mk 0 0 { defaultFormat with capPoints := false })).map
      (pathProbability 1 (1/2))).sum = 1 := by
  exact claim_C1 9 (GameScore.mk 0 0 { defaultFormat with capPoints := false }) 1 (1/2)
    (by decide) (by norm_num) (by norm_num) rfl

/-- Counterexample to C1 as stated: under the default format (which caps
points, the library default), the valid initial score 3-4 (advantage for the
receiver) yields a generated path set whose probabilities sum to 4/5 ≠ 1 at
`p = 3/5` with Player 1 serving.  The capping of 4-4 back to 3-3 makes the
step look like a point lost by the server on both branches.  The generation
shown is complete (a further pass changes nothing). -/
theorem claim_C1_counterexample :
    GameScore.isValidScore 3 4 = true ∧
    defaultFormat.capPoints = true ∧
    incrementPaths gameStop GameScore.isFinal GameScore.nextScores
        (GamePath.generateAllPaths 9 (GameScore.build 3 4 defaultFormat)) =
      GamePath.generateAllPaths 9 (GameScore.build 3 4 defaultFormat) ∧
    ((GamePath.generateAllPaths 9 (GameScore.build 3 4 defaultFormat)).map
      (pathProbability 1 (3/5))).sum = 4/5 ∧
    ((4 : ℚ)/5 ≠ 1) := by
  have hgen : GamePath.generateAllPaths 9 (GameScore.build 3 4 defaultFormat) =
      [[⟨3, 4, defaultFormat⟩, ⟨3, 3, defaultFormat⟩],
       [⟨3, 4, defaultFormat⟩, ⟨3, 5, defaultFormat⟩]] := by decide
  refine ⟨by decide, rfl, ?_, ?_, by norm_num⟩
  · unfold GamePath.generateAllPaths
    rw [extendPaths_eq_stepN]
    exact stable_of_countPaths_eq (by decide)
  · rw [hgen]
    have h33 : gameStepFactor 1 (3/5) ⟨3, 4, defaultFormat⟩ ⟨3, 3, defaultFormat⟩ = 1 - 3/5 := by
      simp [gameStepFactor, GameScore.asPoints]
    have h35 : gameStepFactor 1 (3/5) ⟨3, 4, defaultFormat⟩ ⟨3, 5, defaultFormat⟩ = 1 - 3/5 := by
      simp [gameStepFactor, GameScore.asPoints]
    simp only [List.map_cons, List.map_nil, List.sum_cons, List.sum_nil,
      pathProbability, chainProd, h33, h35]
    norm_num

end Partition

section Evaluator

theorem chainProd_eq_prod_zip {σ : Type} (f : σ → σ → ℚ) (l : List σ) :
    chainProd f l = ((l.zip l.tail).map fun st => f st.1 st.2).prod := by
  match l with
  | [] => rfl
  | [_] => rfl
  | a :: b :: rest =>
    have : chainProd f (a :: b :: rest) = f a b * chainProd f (b :: rest) := rfl
    rw [this, chainProd_eq_prod_zip f (b :: rest)]
    rfl

/-- Claim C3: the path probability evaluators multiply one factor per
transition — the serving player's point-win probability exactly when that
player's count strictly increased, its complement otherwise — and a
single-element path has probability exactly 1.  At the tiebreak level the
server of a transition is the one recorded on the earlier entry. -/
theorem claim_C3 (playerServing : ℕ) (p q1 q2 : ℚ) :
    (∀ scores : List GameScore,
      pathProbability playerServing p scores =
        ((scores.zip scores.tail).map fun st =>
          if (st.1.asPoints playerServing).1 < (st.2.asPoints playerServing).1
          then p else 1 - p).prod) ∧
    (∀ s : GameScore, pathProbability playerServing p [s] = 1) ∧
    (∀ entries : List TBEntry,
      tbPathProbability q1 q2 entries =
        ((entries.zip entries.tail).map fun st =>
          if st.1.playerServing = 1 then
            (if st.1.score.p1 < st.2.score.p1 then q1 else 1 - q1)
          else
            (if st.1.score.p1 < st.2.score.p1 then 1 - q2 else q2)).prod) ∧
    (∀ e : TBEntry, tbPathProbability q1 q2 [e] = 1) := by
  refine ⟨?_, fun _ => rfl, ?_, fun _ => rfl⟩
  · intro scores
    rw [pathProbability, chainProd_eq_prod_zip]
    refine congrArg List.prod (List.map_congr_left ?_)
    intro st _
    simp [gameStepFactor]
  · intro entries
    rw [tbPathProbability, chainProd_eq_prod_zip]
    refine congrArg List.prod (List.map_congr_left ?_)
    intro st _
    by_cases h1 : st.1.playerServing = 1 <;>
      by_cases h2 : st.1.score.p1 < st.2.score.p1 <;>
        simp [tbStepFactor, h1, h2]

theorem mem_incrementPath {σ : Type} {stop finals : σ → Bool} {next : σ → σ × σ}
    {q p : List σ} (hp : p ∈ incrementPath stop finals next q) :
    p = q ∨ ∃ last, q.getLast? = some last ∧
      (p = q ++ [(next last).1] ∨ p = q ++ [(next last).2]) := by
  rcases hex : q.getLast? with _ | last
  case none =>
    unfold incrementPath at hp
    rw [hex] at hp
    simp only [List.mem_singleton] at hp
    exact Or.inl hp
  case some =>
    by_cases hs : stop last = true
    · rw [incrementPath_of_stopped hex (Or.inl hs)] at hp
      simp only [List.mem_singleton] at hp
      exact Or.inl hp
    · by_cases hf : finals last = true
      · rw [incrementPath_of_stopped hex (Or.inr hf)] at hp
        simp only [List.mem_singleton] at hp
        exact Or.inl hp
      · rw [incrementPath_of_active hex (by simp [hs]) (by simp [hf])] at hp
        simp only [List.mem_cons, List.mem_singleton, List.not_mem_nil, or_false] at hp
        exact Or.inr ⟨last, rfl, hp⟩

theorem stepN_chain {σ : Type} {stop finals : σ → Bool} {next : σ → σ × σ}
    (R : σ → σ → Prop) (hnext : ∀ y, R y (next y).1 ∧ R y (next y).2) (n : ℕ)
    {l : List (List σ)} (hl : ∀ p ∈ l, p.Chain' R) :
    ∀ p ∈ stepN stop finals next n l, p.Chain' R := by
  induction n generalizing l with
  | zero => exact hl
  | succ n ih =>
    rw [stepN]
    refine ih ?_
    intro p hp
    rcases List.mem_flatMap.mp hp with ⟨q, hq, hpq⟩
    rcases mem_incrementPath hpq with rfl | ⟨last, hlast, hcase⟩
    · exact hl _ hq
    · have hchain := hl q hq
      have happ : ∀ x, R last x → (q ++ [x]).Chain' R := by
        intro x hx
        rw [List.chain'_append]
        refine ⟨hchain, List.chain'_singleton x, ?_⟩
        intro a ha y hy
        simp only [List.head?_cons, Option.mem_def, Option.some.injEq] at hy
        rw [hlast] at ha
        simp only [Option.mem_def, Option.some.injEq] at ha
        subst ha; subst hy
        exact hx
      rcases hcase with rfl | rfl
      · exact happ _ (hnext last).1
      · exact happ _ (hnext last).2

/-- Claim C4: tiebreak serve rotation.  In every generated tiebreak path, the
server recorded on each successive entry differs from the previous entry's
server exactly when the previous entry's total point count is even — the
first server serves one point and the serve then switches every two points —
for every initial score, initial server and fuel. -/
theorem claim_C4 (fuel : ℕ) (initialScore : TiebreakScore) (playerServing : ℕ) :
    ∀ path ∈ TiebreakPath.generateAllPaths fuel initialScore playerServing,
      path.Chain' (fun e e' : TBEntry =>
        e'.playerServing =
          if (e.score.p1 + e.score.p2) % 2 = 0 then 3 - e.playerServing
          else e.playerServing) := by
  unfold TiebreakPath.generateAllPaths
  rw [extendPaths_eq_stepN]
  refine stepN_chain _ ?_ fuel ?_
  · intro y
    by_cases h : (y.score.p1 + y.score.p2) % 2 = 0 <;>
      constructor <;> simp [tbNext, h]
  · intro p hp
    simp only [List.mem_singleton] at hp
    subst hp
    exact List.chain'_singleton _

/-- Witness for C4: the first extension step from a blank tiebreak hands the
serve from Player 1 to Player 2. -/
theorem claim_C4_witness :
    List.Chain' (fun e e' : TBEntry =>
        e'.playerServing =
          if (e.score.p1 + e.score.p2) % 2 = 0 then 3 - e.playerServing
          else e.playerServing)
      [⟨blankTiebreak, 1⟩, ⟨⟨1, 0, false⟩, 2⟩] := by
  refine claim_C4 1 blankTiebreak 1 _ ?_
  decide

end Evaluator

section BoundaryFormulas

/-- Claim C5: closed-form boundary formulas.  From a game deuce (standard
scoring) the aggregator returns `p^2 / (1 - 2p(1-p))` — so every deuce path's
probability is multiplied by exactly that factor; from a tiebreak tie it
returns `_probabilityP1WinsTie`, which equals
`p1(1-p2) / (1 - p1 p2 - (1-p1)(1-p2))` except when both probabilities are
within `1e-10` of 1, where it is `1/2` by convention. -/
theorem claim_C5 (fuel : ℕ) (playerServing : ℕ) (p q1 q2 : ℚ) :
    (∀ s : GameScore, s.isDeuce = true → s.fmt.noAdRule = false →
      probabilityServerWinsGame fuel s playerServing p =
        p ^ 2 / (1 - 2 * p * (1 - p))) ∧
    (∀ t : TiebreakScore, t.isDeuce = true →
      probabilityP1WinsTiebreak fuel t playerServing q1 q2 =
        probabilityP1WinsTie q1 q2) ∧
    (|1 - q1| < 1 / 10 ^ 10 → |1 - q2| < 1 / 10 ^ 10 →
      probabilityP1WinsTie q1 q2 = 1 / 2) ∧
    (¬(|1 - q1| < 1 / 10 ^ 10 ∧ |1 - q2| < 1 / 10 ^ 10) →
      probabilityP1WinsTie q1 q2 =
        q1 * (1 - q2) / (1 - q1 * q2 - (1 - q1) * (1 - q2))) := by
  refine ⟨?_, ?_, ?_, ?_⟩
  · intro s hdeuce hnoad
    have hstop : gameStop s = true := by
      unfold gameStop
      rw [hdeuce, hnoad]
      rfl
    rw [probabilityServerWinsGame_eq, sumAgg_stopped _ (Or.inl hstop)]
    unfold gameOutcome
    rw [hdeuce]
    rfl
  · intro t hdeuce
    have hstop : tbStop ⟨t, playerServing⟩ = true := hdeuce
    rw [probabilityP1WinsTiebreak_eq, sumAgg_stopped _ (Or.inl hstop)]
    unfold tbOutcome
    have hsc : (⟨t, playerServing⟩ : TBEntry).score = t := rfl
    rw [hsc, hdeuce]
    rfl
  · intro h1 h2
    unfold probabilityP1WinsTie
    rw [if_pos ⟨h1, h2⟩]
  · intro h
    unfold probabilityP1WinsTie
    rw [if_neg h]

/-- Witness for C5: from the canonical deuce 3-3 at `p = 3/5` the game
aggregator returns `(3/5)^2 / (1 - 2(3/5)(2/5))`, and at `q1 = q2 = 1` the
tie formula degenerates to `1/2`. -/
theorem claim_C5_witness :
    probabilityServerWinsGame 9 (GameScore.mk 3 3 defaultFormat) 1 (3/5) =
      (3/5 : ℚ) ^ 2 / (1 - 2 * (3/5) * (1 - 3/5)) ∧
    probabilityP1WinsTie 1 1 = 1 / 2 := by
  constructor
  · exact (claim_C5 9 1 (3/5) 1 1).1 (GameScore.mk 3 3 defaultFormat) (by decide) rfl
  · exact (claim_C5 9 1 (3/5) 1 1).2.2.1 (by norm_num) (by norm_num)

end BoundaryFormulas

section NoAdDivergence

/-- Score on which no-ad path generation diverges: 4-4 under the no-ad,
non-capping format, which the validator accepts. -/
def noAdTrapFormat : MatchFormat :=
  { defaultFormat with noAdRule := true, capPoints := false }

theorem noAdTrap_countPaths {a b : ℕ} (ha : 4 ≤ a) (hb : 4 ≤ b) (n : ℕ) :
    countPaths gameStop GameScore.isFinal GameScore.nextScores n
      (GameScore.mk a b noAdTrapFormat) = 2 ^ n := by
  induction n generalizing a b with
  | zero => rfl
  | succ n ih =>
    have hstop : gameStop (GameScore.mk a b noAdTrapFormat) = false := by
      simp [gameStop, noAdTrapFormat]
    have hfin : (GameScore.mk a b noAdTrapFormat).isFinal = false := by
      simp [GameScore.isFinal, GameScore.playerWon, noAdTrapFormat, NUM_POINTS_WIN]
      omega
    have hnext : (GameScore.mk a b noAdTrapFormat).nextScores =
        (GameScore.mk (a + 1) b noAdTrapFormat, GameScore.mk a (b + 1) noAdTrapFormat) := by
      unfold GameScore.nextScores
      rw [GameScore.build_no_cap rfl, GameScore.build_no_cap rfl]
    rw [countPaths, hstop, hfin]
    simp only [Bool.or_self, Bool.false_eq_true, if_false, hnext]
    rw [ih (by omega) hb, ih ha (by omega), pow_succ]
    omega

/-- Claim C6 (the code diverges): the validator accepts the score 4-4 for a
no-ad game without point capping, but from that score no player ever
satisfies the no-ad win test (which demands exactly 4 points), so every
`_incrementPaths` pass doubles the path list: the generated set has `2^n`
paths after `n` passes and the recursion's exit condition (a pass that adds
no path) never holds — `probabilityServerWinsGame` on this valid input never
returns. -/
theorem claim_C6 :
    GameScore.isValidScore 4 4 = true ∧
    (∀ n : ℕ,
      (GamePath.generateAllPaths n (GameScore.build 4 4 noAdTrapFormat)).length = 2 ^ n) ∧
    (∀ n : ℕ,
      incrementPaths gameStop GameScore.isFinal GameScore.nextScores
          (GamePath.generateAllPaths n (GameScore.build 4 4 noAdTrapFormat)) ≠
        GamePath.generateAllPaths n (GameScore.build 4 4 noAdTrapFormat)) := by
  have hlen : ∀ n : ℕ,
      (GamePath.generateAllPaths n (GameScore.build 4 4 noAdTrapFormat)).length = 2 ^ n := by
    intro n
    unfold GamePath.generateAllPaths
    rw [extendPaths_eq_stepN, length_stepN_seed, GameScore.build_no_cap rfl]
    exact noAdTrap_countPaths (le_refl 4) (le_refl 4) n
  refine ⟨by decide, hlen, ?_⟩
  intro n h
  have hgrow := hlen (n + 1)
  unfold GamePath.generateAllPaths at hgrow h
  rw [extendPaths_eq_stepN] at hgrow h
  rw [stepN_succ_comm, h] at hgrow
  rw [← extendPaths_eq_stepN] at hgrow
  have hn := hlen n
  unfold GamePath.generateAllPaths at hn
  rw [hgrow] at hn
  have hpos : 0 < (2 : ℕ) ^ n := Nat.pos_pow_of_pos n (by omega)
  have : (2 : ℕ) ^ (n + 1) = 2 ^ n * 2 := pow_succ 2 n
  omega

end NoAdDivergence

section Reachability

theorem winBy2Valid_iff (n a b : ℕ) :
    winBy2Valid n a b = true ↔ ((a ≤ n ∧ b ≤ n) ∨ (a - b ≤ 2 ∧ b - a ≤ 2)) := by
  simp [winBy2Valid]

theorem winBy2Final_iff (n a b : ℕ) :
    winBy2Final n a b = true ↔ ((n ≤ a ∧ b + 2 ≤ a) ∨ (n ≤ b ∧ a + 2 ≤ b)) := by
  simp [winBy2Final]

theorem winBy2Final_eq_false_iff (n a b : ℕ) :
    winBy2Final n a b = false ↔ ¬((n ≤ a ∧ b + 2 ≤ a) ∨ (n ≤ b ∧ a + 2 ≤ b)) := by
  rw [← winBy2Final_iff]
  simp

/-- Every count pair the win-by-two validity shape accepts is reachable. -/
theorem winBy2Valid_reach {n : ℕ} : ∀ m a b, a + b = m →
    winBy2Valid n a b = true → Reach (winBy2Final n) a b := by
  intro m
  induction m using Nat.strong_induction_on with
  | _ m ih =>
    intro a b hm hv
    rw [winBy2Valid_iff] at hv
    by_cases h0 : a = 0 ∧ b = 0
    · rw [h0.1, h0.2]
      exact Reach.base
    · by_cases hab : b < a
      · have ha : 1 ≤ a := by omega
        have hvpred : winBy2Valid n (a - 1) b = true := by
          rw [winBy2Valid_iff]; omega
        have hfpred : winBy2Final n (a - 1) b = false := by
          rw [winBy2Final_eq_false_iff]; omega
        have hr := ih (a - 1 + b) (by omega) (a - 1) b rfl hvpred
        have heq : a = a - 1 + 1 := by omega
        rw [heq]
        exact Reach.winP1 hr hfpred
      · have hb : 1 ≤ b := by omega
        have hvpred : winBy2Valid n a (b - 1) = true := by
          rw [winBy2Valid_iff]; omega
        have hfpred : winBy2Final n a (b - 1) = false := by
          rw [winBy2Final_eq_false_iff]; omega
        have hr := ih (a + (b - 1)) (by omega) a (b - 1) rfl hvpred
        have heq : b = b - 1 + 1 := by omega
        rw [heq]
        exact Reach.winP2 hr hfpred

/-- Every reachable count pair passes the win-by-two validity shape. -/
theorem winBy2Reach_valid {n a b : ℕ} (h : Reach (winBy2Final n) a b) :
    winBy2Valid n a b = true := by
  induction h with
  | base => rw [winBy2Valid_iff]; omega
  | winP1 hr hf ih =>
    rw [winBy2Final_eq_false_iff] at hf
    rw [winBy2Valid_iff] at ih ⊢
    omega
  | winP2 hr hf ih =>
    rw [winBy2Final_eq_false_iff] at hf
    rw [winBy2Valid_iff] at ih ⊢
    omega

theorem gameValid_iff_winBy2 (a b : ℕ) :
    GameScore.isValidScore a b = true ↔ winBy2Valid 4 a b = true := by
  simp [GameScore.isValidScore, winBy2Valid, NUM_POINTS_WIN]
  omega

theorem tbValid_iff_winBy2 (isSuper : Bool) (a b : ℕ) :
    TiebreakScore.isValidScore a b isSuper = true ↔
      winBy2Valid (if isSuper then 10 else 7) a b = true := by
  cases isSuper <;> simp [TiebreakScore.isValidScore, winBy2Valid]

theorem matchFinalAt_iff (fmt : MatchFormat) (a b : ℕ) :
    matchFinalAt fmt a b = true ↔ (a = fmt.setsToWin ∨ b = fmt.setsToWin) := by
  simp [matchFinalAt, MatchScore.isFinal, MatchScore.playerWon]

theorem matchFinalAt_eq_false_iff (fmt : MatchFormat) (a b : ℕ) :
    matchFinalAt fmt a b = false ↔ ¬(a = fmt.setsToWin ∨ b = fmt.setsToWin) := by
  rw [← matchFinalAt_iff]
  simp

theorem matchValid_iff (fmt : MatchFormat) (s1 s2 : ℕ) :
    MatchScore.isValidScore s1 s2 false fmt = true ↔
      (s1 ≤ fmt.setsToWin ∧ s2 ≤ fmt.setsToWin) := by
  simp [MatchScore.isValidScore]

theorem setsToWin_pos (fmt : MatchFormat) : 1 ≤ fmt.setsToWin := by
  unfold MatchFormat.setsToWin
  omega

/-- Invariant of match reachability: counts stay bounded by `setsToWin` and
never both reach it. -/
theorem matchReach_invariant {fmt : MatchFormat} {a b : ℕ}
    (h : Reach (matchFinalAt fmt) a b) :
    a ≤ fmt.setsToWin ∧ b ≤ fmt.setsToWin ∧ ¬(a = fmt.setsToWin ∧ b = fmt.setsToWin) := by
  have hpos := setsToWin_pos fmt
  induction h with
  | base => omega
  | winP1 hr hf ih =>
    rw [matchFinalAt_eq_false_iff] at hf
    omega
  | winP2 hr hf ih =>
    rw [matchFinalAt_eq_false_iff] at hf
    omega

theorem matchValid_reach {fmt : MatchFormat} : ∀ m s1 s2, s1 + s2 = m →
    s1 ≤ fmt.setsToWin → s2 ≤ fmt.setsToWin →
    ¬(s1 = fmt.setsToWin ∧ s2 = fmt.setsToWin) → Reach (matchFinalAt fmt) s1 s2 := by
  intro m
  induction m using Nat.strong_induction_on with
  | _ m ih =>
    intro s1 s2 hm h1 h2 hnb
    by_cases h0 : s1 = 0 ∧ s2 = 0
    · rw [h0.1, h0.2]; exact Reach.base
    · have hpos := setsToWin_pos fmt
      by_cases hc : s1 = fmt.setsToWin ∨ (s1 < fmt.setsToWin ∧ s2 < fmt.setsToWin ∧ 1 ≤ s1)
      · have ha : 1 ≤ s1 := by omega
        have hfpred : matchFinalAt fmt (s1 - 1) s2 = false := by
          rw [matchFinalAt_eq_false_iff]; omega
        have hr := ih (s1 - 1 + s2) (by omega) (s1 - 1) s2 rfl (by omega) h2 (by omega)
        have heq : s1 = s1 - 1 + 1 := by omega
        rw [heq]
        exact Reach.winP1 hr hfpred
      · have hb : 1 ≤ s2 := by omega
        have hfpred : matchFinalAt fmt s1 (s2 - 1) = false := by
          rw [matchFinalAt_eq_false_iff]; omega
        have hr := ih (s1 + (s2 - 1)) (by omega) s1 (s2 - 1) rfl h1 (by omega) (by omega)
        have heq : s2 = s2 - 1 + 1 := by omega
        rw [heq]
        exact Reach.winP2 hr hfpred

theorem gameFinalNoAd_iff (a b : ℕ) :
    gameFinalNoAd a b = true ↔ ((a = 4 ∧ b < 4) ∨ (b = 4 ∧ a < 4)) := by
  simp [gameFinalNoAd, GameScore.isFinal, GameScore.playerWon, NUM_POINTS_WIN,
    defaultFormat]

theorem gameFinalNoAd_eq_false_iff (a b : ℕ) :
    gameFinalNoAd a b = false ↔ ¬((a = 4 ∧ b < 4) ∨ (b = 4 ∧ a < 4)) := by
  rw [← gameFinalNoAd_iff]
  simp

/-- Invariant of no-ad game reachability: counts stay bounded by 4 and never
both reach 4 — so 4-4 and everything beyond it is unreachable under the
no-ad termination rule. -/
theorem noAdReach_invariant {a b : ℕ} (h : Reach gameFinalNoAd a b) :
    a ≤ 4 ∧ b ≤ 4 ∧ ¬(a = 4 ∧ b = 4) := by
  induction h with
  | base => omega
  | winP1 hr hf ih =>
    rw [gameFinalNoAd_eq_false_iff] at hf
    omega
  | winP2 hr hf ih =>
    rw [gameFinalNoAd_eq_false_iff] at hf
    omega

/-- Claim C8 (amended): construction-time validation coincides exactly with
reachability under the standard win-by-two termination rule for `GameScore`
(threshold 4; 5-0 is rejected) and `TiebreakScore` (threshold 7 / 10), but
`MatchScore` additionally accepts the single unreachable pair
`(setsToWin, setsToWin)`, and the game validator ignores the no-ad rule —
it accepts 5-4, which is unreachable under no-ad termination. -/
theorem claim_C8 :
    (∀ a b : ℕ, GameScore.isValidScore a b = true ↔ Reach gameFinalStd a b) ∧
    (∀ (isSuper : Bool) (a b : ℕ),
      TiebreakScore.isValidScore a b isSuper = true ↔ Reach (tbFinalAt isSuper) a b) ∧
    (∀ (fmt : MatchFormat) (s1 s2 : ℕ),
      MatchScore.isValidScore s1 s2 false fmt = true ↔
        (Reach (matchFinalAt fmt) s1 s2 ∨ (s1 = fmt.setsToWin ∧ s2 = fmt.setsToWin))) ∧
    GameScore.isValidScore 5 0 = false ∧
    (GameScore.isValidScore 5 4 = true ∧ ¬ Reach gameFinalNoAd 5 4) := by
  refine ⟨?_, ?_, ?_, by decide, by decide, ?_⟩
  · intro a b
    have hbr : gameFinalStd = winBy2Final 4 := rfl
    rw [gameValid_iff_winBy2, hbr]
    exact ⟨fun h => winBy2Valid_reach (a + b) a b rfl h, winBy2Reach_valid⟩
  · intro isSuper a b
    have hbr : tbFinalAt isSuper = winBy2Final (if isSuper then 10 else 7) := by
      cases isSuper <;> rfl
    rw [tbValid_iff_winBy2, hbr]
    exact ⟨fun h => winBy2Valid_reach (a + b) a b rfl h, winBy2Reach_valid⟩
  · intro fmt s1 s2
    rw [matchValid_iff]
    constructor
    · intro ⟨h1, h2⟩
      by_cases hb : s1 = fmt.setsToWin ∧ s2 = fmt.setsToWin
      · exact Or.inr hb
      · exact Or.inl (matchValid_reach (s1 + s2) s1 s2 rfl h1 h2 hb)
    · intro h
      rcases h with h | ⟨h1, h2⟩
      · have := matchReach_invariant h
        omega
      · omega
  · intro h
    have := noAdReach_invariant h
    omega

/-- Counterexample to C8 as stated: the `MatchScore` validator accepts 2-2
in a best-of-3 match, although 2-2 is unreachable (the match ends as soon as
a player reaches 2 sets); likewise the `GameScore` validator accepts 5-4,
which is unreachable under the no-ad termination rule. -/
theorem claim_C8_counterexample :
    MatchScore.isValidScore 2 2 false { defaultFormat with bestOfSets := some 3 } = true ∧
    ¬ Reach (matchFinalAt { defaultFormat with bestOfSets := some 3 }) 2 2 ∧
    GameScore.isValidScore 5 4 = true ∧
    ¬ Reach gameFinalNoAd 5 4 := by
  refine ⟨by decide, ?_, by decide, ?_⟩
  · intro h
    have := matchReach_invariant h
    revert this
    decide
  · intro h
    have := noAdReach_invariant h
    omega

end Reachability

section SwapSymmetry

theorem GameScore.swap_isDeuce (s : GameScore) : s.swap.isDeuce = s.isDeuce := by
  rw [Bool.eq_iff_iff]
  simp [GameScore.swap, GameScore.isDeuce, NUM_POINTS_WIN]
  omega

theorem GameScore.swap_playerWon₁ (s : GameScore) : s.swap.playerWon 1 = s.playerWon 2 := rfl

theorem GameScore.swap_playerWon₂ (s : GameScore) : s.swap.playerWon 2 = s.playerWon 1 := rfl

theorem GameScore.swap_isFinal (s : GameScore) : s.swap.isFinal = s.isFinal := by
  unfold GameScore.isFinal
  rw [GameScore.swap_playerWon₁, GameScore.swap_playerWon₂, Bool.or_comm]

theorem GameScore.not_both_won (s : GameScore) :
    ¬(s.playerWon 1 = true ∧ s.playerWon 2 = true) := by
  unfold GameScore.playerWon
  by_cases hna : s.fmt.noAdRule <;> simp [hna, NUM_POINTS_WIN] <;> omega

theorem GameScore.swap_gameStop (s : GameScore) : gameStop s.swap = gameStop s := by
  unfold gameStop
  rw [GameScore.swap_isDeuce]
  rfl

theorem GameScore.isDeuce_iff (s : GameScore) :
    s.isDeuce = true ↔ (s.p1 = s.p2 ∧ 3 ≤ s.p1) := by
  simp [GameScore.isDeuce, NUM_POINTS_WIN]

theorem GameScore.playerWithAdvantage_eq₁ {s : GameScore}
    (h : s.p1 = s.p2 + 1 ∧ 4 ≤ s.p1) : s.playerWithAdvantage = some 1 := by
  unfold GameScore.playerWithAdvantage
  rw [if_pos]
  simp [NUM_POINTS_WIN]
  omega

theorem GameScore.playerWithAdvantage_eq₂ {s : GameScore}
    (_h1 : ¬(s.p1 = s.p2 + 1 ∧ 4 ≤ s.p1)) (h2 : s.p2 = s.p1 + 1 ∧ 4 ≤ s.p2) :
    s.playerWithAdvantage = some 2 := by
  unfold GameScore.playerWithAdvantage
  rw [if_neg, if_pos]
  · simp [NUM_POINTS_WIN]; omega
  · simp [NUM_POINTS_WIN]; omega

theorem GameScore.playerWithAdvantage_eq_none {s : GameScore}
    (h1 : ¬(s.p1 = s.p2 + 1 ∧ 4 ≤ s.p1)) (h2 : ¬(s.p2 = s.p1 + 1 ∧ 4 ≤ s.p2)) :
    s.playerWithAdvantage = none := by
  unfold GameScore.playerWithAdvantage
  rw [if_neg, if_neg]
  · simp [NUM_POINTS_WIN]; omega
  · simp [NUM_POINTS_WIN]; omega

theorem GameScore.capScore_swap (s : GameScore) : s.swap.capScore = s.capScore.swap := by
  unfold GameScore.capScore
  rw [GameScore.swap_isDeuce]
  by_cases hd : s.isDeuce = true
  · simp [hd, GameScore.swap]
  · rw [if_neg hd, if_neg hd]
    by_cases h1 : s.p1 = s.p2 + 1 ∧ 4 ≤ s.p1
    · have e1 : s.playerWithAdvantage = some 1 := GameScore.playerWithAdvantage_eq₁ h1
      have e2 : s.swap.playerWithAdvantage = some 2 :=
        @GameScore.playerWithAdvantage_eq₂ s.swap
          (by show ¬(s.p2 = s.p1 + 1 ∧ 4 ≤ s.p2); omega)
          (by show s.p1 = s.p2 + 1 ∧ 4 ≤ s.p1; exact h1)
      rw [e1, e2]
      simp [GameScore.swap, NUM_POINTS_WIN]
    · by_cases h2 : s.p2 = s.p1 + 1 ∧ 4 ≤ s.p2
      · have e1 : s.playerWithAdvantage = some 2 := GameScore.playerWithAdvantage_eq₂ h1 h2
        have e2 : s.swap.playerWithAdvantage = some 1 :=
          @GameScore.playerWithAdvantage_eq₁ s.swap
            (by show s.p2 = s.p1 + 1 ∧ 4 ≤ s.p2; exact h2)
        rw [e1, e2]
        simp [GameScore.swap, NUM_POINTS_WIN]
      · have e1 : s.playerWithAdvantage = none :=
          GameScore.playerWithAdvantage_eq_none h1 h2
        have e2 : s.swap.playerWithAdvantage = none :=
          @GameScore.playerWithAdvantage_eq_none s.swap
            (by show ¬(s.p2 = s.p1 + 1 ∧ 4 ≤ s.p2); exact h2)
            (by show ¬(s.p1 = s.p2 + 1 ∧ 4 ≤ s.p1); exact h1)
        rw [e1, e2]
        simp

theorem GameScore.swap_build (a b : ℕ) (fmt : MatchFormat) :
    (GameScore.build a b fmt).swap = GameScore.build b a fmt := by
  unfold GameScore.build
  by_cases hc : fmt.capPoints = true
  · rw [if_pos hc, if_pos hc]
    have : (⟨b, a, fmt⟩ : GameScore) = (⟨a, b, fmt⟩ : GameScore).swap := rfl
    rw [this, GameScore.capScore_swap]
  · rw [if_neg hc, if_neg hc]
    rfl

theorem GameScore.swap_nextScores (s : GameScore) :
    s.swap.nextScores = ((s.nextScores.2).swap, (s.nextScores.1).swap) := by
  show (GameScore.build (s.p2 + 1) s.p1 s.fmt, GameScore.build s.p2 (s.p1 + 1) s.fmt) = _
  unfold GameScore.nextScores
  rw [GameScore.swap_build, GameScore.swap_build]

theorem gameStepFactor_swap (p : ℚ) (u v : GameScore) :
    gameStepFactor 2 p u.swap v.swap = gameStepFactor 1 p u v := rfl

theorem gameOutcome_swap (p : ℚ) (s : GameScore) :
    gameOutcome 2 p s.swap = gameOutcome 1 p s := by
  unfold gameOutcome
  rw [GameScore.swap_isDeuce]
  by_cases hd : s.isDeuce = true
  · rw [if_pos hd, if_pos hd]
  · rw [if_neg hd, if_neg hd]
    unfold GameScore.winner
    rw [GameScore.swap_playerWon₁, GameScore.swap_playerWon₂]
    cases hw1 : s.playerWon 1 with
    | true =>
      have hw2 : s.playerWon 2 = false := by
        cases hw2 : s.playerWon 2 with
        | true => exact absurd ⟨hw1, hw2⟩ (GameScore.not_both_won s)
        | false => rfl
      simp [hw1, hw2]
    | false =>
      cases hw2 : s.playerWon 2 with
      | true => simp [hw1, hw2]
      | false => simp [hw1, hw2]

/-- Player symmetry of the game engine: the server's win probability from a
mirrored score with Player 2 serving equals the one from the original score
with Player 1 serving. -/
theorem probabilityServerWinsGame_swap (n : ℕ) (s : GameScore) (p : ℚ) :
    probabilityServerWinsGame n s.swap 2 p = probabilityServerWinsGame n s 1 p := by
  rw [probabilityServerWinsGame_eq, probabilityServerWinsGame_eq]
  induction n generalizing s with
  | zero =>
    rw [stepN, stepN, sumOver_singleton, sumOver_singleton]
    exact gameOutcome_swap p s
  | succ n ih =>
    by_cases hst : gameStop s = true ∨ s.isFinal = true
    · have hst' : gameStop s.swap = true ∨ s.swap.isFinal = true := by
        rw [GameScore.swap_gameStop, GameScore.swap_isFinal]
        exact hst
      rw [sumAgg_stopped _ hst', sumAgg_stopped _ hst]
      exact gameOutcome_swap p s
    · push_neg at hst
      have hs : gameStop s = false := by simpa using hst.1
      have hf : s.isFinal = false := by simpa using hst.2
      have hs' : gameStop s.swap = false := by rw [GameScore.swap_gameStop]; exact hs
      have hf' : s.swap.isFinal = false := by rw [GameScore.swap_isFinal]; exact hf
      rw [sumAgg_step _ hs' hf', sumAgg_step _ hs hf, GameScore.swap_nextScores]
      have d1 : sumOver (gameStepFactor 2 p) (gameOutcome 2 p) s.swap
          (stepN gameStop GameScore.isFinal GameScore.nextScores n [[(s.nextScores.2).swap]]) =
          sumOver (gameStepFactor 2 p) (gameOutcome 2 p) (s.nextScores.2).swap
          (stepN gameStop GameScore.isFinal GameScore.nextScores n [[(s.nextScores.2).swap]]) :=
        sumOver_dflt _ _ (fun q hq => (mem_stepN_seed n hq).1)
      have d2 : sumOver (gameStepFactor 2 p) (gameOutcome 2 p) s.swap
          (stepN gameStop GameScore.isFinal GameScore.nextScores n [[(s.nextScores.1).swap]]) =
          sumOver (gameStepFactor 2 p) (gameOutcome 2 p) (s.nextScores.1).swap
          (stepN gameStop GameScore.isFinal GameScore.nextScores n [[(s.nextScores.1).swap]]) :=
        sumOver_dflt _ _ (fun q hq => (mem_stepN_seed n hq).1)
      have e1 : sumOver (gameStepFactor 1 p) (gameOutcome 1 p) s
          (stepN gameStop GameScore.isFinal GameScore.nextScores n [[s.nextScores.1]]) =
          sumOver (gameStepFactor 1 p) (gameOutcome 1 p) s.nextScores.1
          (stepN gameStop GameScore.isFinal GameScore.nextScores n [[s.nextScores.1]]) :=
        sumOver_dflt _ _ (fun q hq => (mem_stepN_seed n hq).1)
      have e2 : sumOver (gameStepFactor 1 p) (gameOutcome 1 p) s
          (stepN gameStop GameScore.isFinal GameScore.nextScores n [[s.nextScores.2]]) =
          sumOver (gameStepFactor 1 p) (gameOutcome 1 p) s.nextScores.2
          (stepN gameStop GameScore.isFinal GameScore.nextScores n [[s.nextScores.2]]) :=
        sumOver_dflt _ _ (fun q hq => (mem_stepN_seed n hq).1)
      show gameStepFactor 2 p s.swap (s.nextScores.2).swap * _ +
          gameStepFactor 2 p s.swap (s.nextScores.1).swap * _ = _
      rw [d1, d2, e1, e2, gameStepFactor_swap, gameStepFactor_swap,
        ih s.nextScores.2, ih s.nextScores.1]
      ring

end SwapSymmetry

section SetDecomposition

/-- Claim C10: cross-level decomposition consistency.  At a game boundary
that is neither final nor tied, the conditional decomposition used by
`probabilityP1WinsSet` when a game is in progress — applied to the upcoming
(blank) game, with the serve passing to the other player afterwards — equals
the value obtained by direct set-path enumeration from that boundary score,
exactly, for both servers, all probabilities and every fuel. -/
theorem claim_C10 (fuel : ℕ) (initScore : SetScore) (playerServing : ℕ) (p1 p2 : ℚ)
    (hsrv : playerServing = 1 ∨ playerServing = 2)
    (htied : initScore.isTied = false) (hfin : initScore.isFinal = false) :
    probabilityP1WinsSetMidGame fuel initScore blankGame playerServing p1 p2 =
      probabilityP1WinsSetFromGameBoundary (fuel + 1) initScore playerServing p1 p2 := by
  have hst : setStop ⟨initScore, playerServing⟩ = false := htied
  have hfn : setFinal ⟨initScore, playerServing⟩ = false := hfin
  rw [probabilityP1WinsSetFromGameBoundary_eq, sumAgg_step _ hst hfn]
  have hd1 : sumOver (setStepFactor p1 p2) (setOutcome p1 p2) ⟨initScore, playerServing⟩
      (stepN setStop setFinal setNext fuel [[(setNext ⟨initScore, playerServing⟩).1]]) =
      sumOver (setStepFactor p1 p2) (setOutcome p1 p2) (setNext ⟨initScore, playerServing⟩).1
      (stepN setStop setFinal setNext fuel [[(setNext ⟨initScore, playerServing⟩).1]]) :=
    sumOver_dflt _ _ (fun q hq => (mem_stepN_seed fuel hq).1)
  have hd2 : sumOver (setStepFactor p1 p2) (setOutcome p1 p2) ⟨initScore, playerServing⟩
      (stepN setStop setFinal setNext fuel [[(setNext ⟨initScore, playerServing⟩).2]]) =
      sumOver (setStepFactor p1 p2) (setOutcome p1 p2) (setNext ⟨initScore, playerServing⟩).2
      (stepN setStop setFinal setNext fuel [[(setNext ⟨initScore, playerServing⟩).2]]) :=
    sumOver_dflt _ _ (fun q hq => (mem_stepN_seed fuel hq).1)
  rw [hd1, hd2]
  rcases hsrv with rfl | rfl
  · simp only [probabilityP1WinsSetMidGame, probWinGameFromBlank, setStepFactor,
      probabilityP1WinsSetFromGameBoundary_eq, setNext, SetScore.nextGameScores]
    norm_num
  · have hblank : probabilityServerWinsGame gameFuel blankGame 2 p2 =
        probabilityServerWinsGame gameFuel blankGame 1 p2 := by
      have hswap : blankGame.swap = blankGame := by decide
      rw [← hswap, probabilityServerWinsGame_swap, hswap]
    simp only [probabilityP1WinsSetMidGame, probWinGameFromBlank, setStepFactor,
      probabilityP1WinsSetFromGameBoundary_eq, setNext, SetScore.nextGameScores]
    norm_num
    rw [hblank]

/-- Witness for C10 at the serve probabilities (0.65, 0.60) from the
boundary score 5-5: the decomposition and the direct enumeration agree. -/
theorem claim_C10_witness :
    probabilityP1WinsSetMidGame 13 ⟨5, 5, false, defaultFormat⟩ blankGame 1 (13/20) (3/5) =
      probabilityP1WinsSetFromGameBoundary 14 ⟨5, 5, false, defaultFormat⟩ 1 (13/20) (3/5) :=
  claim_C10 13 ⟨5, 5, false, defaultFormat⟩ 1 (13/20) (3/5) (Or.inl rfl) (by decide) (by decide)

end SetDecomposition

section Monotonicity

/-
  Strict monotonicity of the game aggregator in the serve probability, for
  standard scoring without point capping.  `deuceWin p = p^2/(1-2p(1-p))`
  denotes the closed-form deuce value throughout.
-/

theorem deuceDenom_pos (p : ℚ) : 0 < 1 - 2 * p * (1 - p) := by
  nlinarith [sq_nonneg (2 * p - 1)]

theorem deuceWin_nonneg {p : ℚ} (_hp : 0 ≤ p) :
    0 ≤ p ^ 2 / (1 - 2 * p * (1 - p)) :=
  div_nonneg (by positivity) (le_of_lt (deuceDenom_pos p))

theorem deuceWin_le_one (p : ℚ) : p ^ 2 / (1 - 2 * p * (1 - p)) ≤ 1 := by
  rw [div_le_one (deuceDenom_pos p)]
  nlinarith [sq_nonneg (1 - p)]

theorem deuceWin_pos {p : ℚ} (hp : 0 < p) : 0 < p ^ 2 / (1 - 2 * p * (1 - p)) :=
  div_pos (by positivity) (deuceDenom_pos p)

theorem deuceWin_lt_one {p : ℚ} (hp : p < 1) : p ^ 2 / (1 - 2 * p * (1 - p)) < 1 := by
  rw [div_lt_one (deuceDenom_pos p)]
  nlinarith [sq_nonneg (1 - p)]

theorem deuceWin_factor (p q : ℚ) :
    q ^ 2 * (1 - 2 * p * (1 - p)) - p ^ 2 * (1 - 2 * q * (1 - q)) =
      (q - p) * (q * (1 - p) + p * (1 - q)) := by
  ring

theorem deuceWin_mono {p q : ℚ} (hp : 0 ≤ p) (hpq : p ≤ q) (hq : q ≤ 1) :
    p ^ 2 / (1 - 2 * p * (1 - p)) ≤ q ^ 2 / (1 - 2 * q * (1 - q)) := by
  rw [div_le_div_iff (deuceDenom_pos p) (deuceDenom_pos q)]
  have key := deuceWin_factor p q
  have hnn : 0 ≤ (q - p) * (q * (1 - p) + p * (1 - q)) := by
    apply mul_nonneg (by linarith)
    have h1 : 0 ≤ q * (1 - p) := mul_nonneg (by linarith) (by linarith)
    have h2 : 0 ≤ p * (1 - q) := mul_nonneg hp (by linarith)
    linarith
  linarith

theorem deuceWin_strictMono {p q : ℚ} (hp : 0 < p) (hpq : p < q) (hq : q < 1) :
    p ^ 2 / (1 - 2 * p * (1 - p)) < q ^ 2 / (1 - 2 * q * (1 - q)) := by
  rw [div_lt_div_iff (deuceDenom_pos p) (deuceDenom_pos q)]
  have key := deuceWin_factor p q
  have hpos : 0 < (q - p) * (q * (1 - p) + p * (1 - q)) := by
    apply mul_pos (by linarith)
    have h1 : 0 < q * (1 - p) := mul_pos (by linarith) (by linarith)
    have h2 : 0 ≤ p * (1 - q) := mul_nonneg (le_of_lt hp) (by linarith)
    linarith
  linarith

variable {fmt : MatchFormat}

theorem std_isFinal_iff (hna : fmt.noAdRule = false) (a b : ℕ) :
    (⟨a, b, fmt⟩ : GameScore).isFinal = true ↔
      ((4 ≤ a ∧ b + 2 ≤ a) ∨ (4 ≤ b ∧ a + 2 ≤ b)) := by
  unfold GameScore.isFinal GameScore.playerWon
  simp [hna, NUM_POINTS_WIN]
  omega

theorem std_isFinal_false_iff (hna : fmt.noAdRule = false) (a b : ℕ) :
    (⟨a, b, fmt⟩ : GameScore).isFinal = false ↔
      ¬((4 ≤ a ∧ b + 2 ≤ a) ∨ (4 ≤ b ∧ a + 2 ≤ b)) := by
  rw [← std_isFinal_iff hna]
  simp

theorem std_stop_iff (hna : fmt.noAdRule = false) (a b : ℕ) :
    gameStop ⟨a, b, fmt⟩ = true ↔ (a = b ∧ 3 ≤ a) := by
  unfold gameStop
  simp [hna, GameScore.isDeuce, NUM_POINTS_WIN]

theorem std_stop_false_iff (hna : fmt.noAdRule = false) (a b : ℕ) :
    gameStop ⟨a, b, fmt⟩ = false ↔ ¬(a = b ∧ 3 ≤ a) := by
  rw [← std_stop_iff hna]
  simp

theorem std_playerWon1_iff (hna : fmt.noAdRule = false) (a b : ℕ) :
    (⟨a, b, fmt⟩ : GameScore).playerWon 1 = true ↔ (4 ≤ a ∧ b + 2 ≤ a) := by
  unfold GameScore.playerWon
  simp [hna, NUM_POINTS_WIN]
  omega

theorem std_playerWon2_iff (hna : fmt.noAdRule = false) (a b : ℕ) :
    (⟨a, b, fmt⟩ : GameScore).playerWon 2 = true ↔ (4 ≤ b ∧ a + 2 ≤ b) := by
  unfold GameScore.playerWon
  simp [hna, NUM_POINTS_WIN]
  omega

theorem std_isDeuce_iff (a b : ℕ) :
    (⟨a, b, fmt⟩ : GameScore).isDeuce = true ↔ (a = b ∧ 3 ≤ a) := by
  simp [GameScore.isDeuce, NUM_POINTS_WIN]

theorem std_outcome_eval (hna : fmt.noAdRule = false) (a b : ℕ) (p : ℚ) :
    gameOutcome 1 p ⟨a, b, fmt⟩ =
      if a = b ∧ 3 ≤ a then p ^ 2 / (1 - 2 * p * (1 - p))
      else if 4 ≤ a ∧ b + 2 ≤ a then 1 else 0 := by
  unfold gameOutcome
  by_cases hd : a = b ∧ 3 ≤ a
  · have hdeuce : (⟨a, b, fmt⟩ : GameScore).isDeuce = true := (std_isDeuce_iff a b).mpr hd
    rw [if_pos hd]
    simp [hdeuce]
  · have hdeuce : (⟨a, b, fmt⟩ : GameScore).isDeuce = false := by
      rw [← Bool.not_eq_true, std_isDeuce_iff]
      exact hd
    rw [if_neg hd]
    simp only [hdeuce, Bool.false_eq_true, if_false]
    unfold GameScore.winner
    by_cases hw : 4 ≤ a ∧ b + 2 ≤ a
    · have h1 : (⟨a, b, fmt⟩ : GameScore).playerWon 1 = true :=
        (std_playerWon1_iff hna a b).mpr hw
      rw [if_pos hw]
      simp [h1]
    · have h1 : (⟨a, b, fmt⟩ : GameScore).playerWon 1 = false := by
        rw [← Bool.not_eq_true, std_playerWon1_iff hna]
        exact hw
      rw [if_neg hw]
      by_cases h2 : (⟨a, b, fmt⟩ : GameScore).playerWon 2 = true <;> simp [h1, h2]

theorem std_agg_stopped {s : GameScore} (h : gameStop s = true ∨ s.isFinal = true)
    (n : ℕ) (p : ℚ) :
    probabilityServerWinsGame n s 1 p = gameOutcome 1 p s := by
  rw [probabilityServerWinsGame_eq]
  exact sumAgg_stopped _ h n

theorem std_agg_step (hna : fmt.noAdRule = false) (hcap : fmt.capPoints = false)
    {a b : ℕ} (hnstop : ¬(a = b ∧ 3 ≤ a))
    (hnfin : ¬((4 ≤ a ∧ b + 2 ≤ a) ∨ (4 ≤ b ∧ a + 2 ≤ b))) (n : ℕ) (p : ℚ) :
    probabilityServerWinsGame (n + 1) ⟨a, b, fmt⟩ 1 p =
      p * probabilityServerWinsGame n ⟨a + 1, b, fmt⟩ 1 p +
        (1 - p) * probabilityServerWinsGame n ⟨a, b + 1, fmt⟩ 1 p := by
  have hstop : gameStop ⟨a, b, fmt⟩ = false := (std_stop_false_iff hna a b).mpr hnstop
  have hfin : (⟨a, b, fmt⟩ : GameScore).isFinal = false :=
    (std_isFinal_false_iff hna a b).mpr hnfin
  have hnext : (⟨a, b, fmt⟩ : GameScore).nextScores =
      (⟨a + 1, b, fmt⟩, ⟨a, b + 1, fmt⟩) := by
    unfold GameScore.nextScores
    rw [GameScore.build_no_cap hcap, GameScore.build_no_cap hcap]
  rw [probabilityServerWinsGame_eq, probabilityServerWinsGame_eq,
    probabilityServerWinsGame_eq, sumAgg_step _ hstop hfin, hnext]
  have hf1 : gameStepFactor 1 p ⟨a, b, fmt⟩ ⟨a + 1, b, fmt⟩ = p := by
    simp [gameStepFactor, GameScore.asPoints]
  have hf2 : gameStepFactor 1 p ⟨a, b, fmt⟩ ⟨a, b + 1, fmt⟩ = 1 - p := by
    simp [gameStepFactor, GameScore.asPoints]
  rw [hf1, hf2,
    @sumOver_dflt GameScore (gameStepFactor 1 p) (gameOutcome 1 p) _
      (⟨a, b, fmt⟩ : GameScore) ⟨a + 1, b, fmt⟩
      (fun q hq => (mem_stepN_seed n hq).1),
    @sumOver_dflt GameScore (gameStepFactor 1 p) (gameOutcome 1 p) _
      (⟨a, b, fmt⟩ : GameScore) ⟨a, b + 1, fmt⟩
      (fun q hq => (mem_stepN_seed n hq).1)]

theorem std_agg_range (hcap : fmt.capPoints = false) (s : GameScore)
    (hfmt : s.fmt = fmt) {p : ℚ} (hp0 : 0 ≤ p) (hp1 : p ≤ 1) (n : ℕ) :
    0 ≤ probabilityServerWinsGame n s 1 p ∧ probabilityServerWinsGame n s 1 p ≤ 1 := by
  rw [probabilityServerWinsGame_eq]
  refine sumAgg_range (fun y => y.fmt = fmt) ?_ ?_ ?_ hfmt s n
  · intro y hy
    constructor <;> simp [GameScore.nextScores, GameScore.build_fmt, hy]
  · intro y hy _ _
    have hsum := gameStepFactor_sum (hy ▸ hcap) 1 p
    have hmem : ∀ c : GameScore, gameStepFactor 1 p y c = p ∨ gameStepFactor 1 p y c = 1 - p := by
      intro c
      unfold gameStepFactor
      split
      · exact Or.inl rfl
      · exact Or.inr rfl
    rcases hmem y.nextScores.1 with h1 | h1 <;> rcases hmem y.nextScores.2 with h2 | h2 <;>
      rw [h1, h2] <;> constructor <;> first | linarith | (constructor <;> linarith)
  · intro y _
    unfold gameOutcome
    split
    · exact ⟨deuceWin_nonneg hp0, deuceWin_le_one p⟩
    · split
      · exact ⟨by norm_num, by norm_num⟩
      · exact ⟨by norm_num, by norm_num⟩

theorem std_agg_zero (s : GameScore) (p : ℚ) :
    probabilityServerWinsGame 0 s 1 p = gameOutcome 1 p s := by
  rw [probabilityServerWinsGame_eq, stepN, sumOver_singleton]

theorem std_dominance (hna : fmt.noAdRule = false) (hcap : fmt.capPoints = false)
    {p : ℚ} (hp0 : 0 ≤ p) (hp1 : p ≤ 1) :
    ∀ n a b, probabilityServerWinsGame n ⟨a, b + 1, fmt⟩ 1 p ≤
      probabilityServerWinsGame n ⟨a + 1, b, fmt⟩ 1 p := by
  intro n
  induction n with
  | zero =>
    intro a b
    rw [std_agg_zero, std_agg_zero, std_outcome_eval hna, std_outcome_eval hna]
    by_cases hdX : a + 1 = b ∧ 3 ≤ a + 1
    · rw [if_pos hdX, if_neg (by omega), if_neg (by omega)]
      exact deuceWin_nonneg hp0
    · rw [if_neg hdX]
      by_cases hdY : a = b + 1 ∧ 3 ≤ a
      · rw [if_pos hdY, if_pos (by omega)]
        exact le_trans (deuceWin_le_one p) (le_refl 1)
      · rw [if_neg hdY]
        by_cases hsX : 4 ≤ a + 1 ∧ b + 2 ≤ a + 1
        · rw [if_pos hsX]
          by_cases hsY : 4 ≤ a ∧ b + 1 + 2 ≤ a
          · rw [if_pos hsY]
          · rw [if_neg hsY]; norm_num
        · rw [if_neg hsX, if_neg (by omega)]
  | succ m ih =>
    intro a b
    by_cases hsX : 4 ≤ a + 1 ∧ b + 2 ≤ a + 1
    · have hfinX : (⟨a + 1, b, fmt⟩ : GameScore).isFinal = true :=
        (std_isFinal_iff hna _ _).mpr (Or.inl hsX)
      rw [std_agg_stopped (Or.inr hfinX), std_outcome_eval hna,
        if_neg (by omega), if_pos hsX]
      exact (std_agg_range hcap _ rfl hp0 hp1 (m + 1)).2
    · by_cases hoY : 4 ≤ b + 1 ∧ a + 2 ≤ b + 1
      · have hfinY : (⟨a, b + 1, fmt⟩ : GameScore).isFinal = true :=
          (std_isFinal_iff hna _ _).mpr (Or.inr hoY)
        rw [std_agg_stopped (Or.inr hfinY), std_outcome_eval hna,
          if_neg (by omega), if_neg (by omega)]
        exact (std_agg_range hcap _ rfl hp0 hp1 (m + 1)).1
      · have hXns : ¬(a + 1 = b ∧ 3 ≤ a + 1) := by omega
        have hXnf : ¬((4 ≤ a + 1 ∧ b + 2 ≤ a + 1) ∨ (4 ≤ b ∧ a + 1 + 2 ≤ b)) := by omega
        have hYns : ¬(a = b + 1 ∧ 3 ≤ a) := by omega
        have hYnf : ¬((4 ≤ a ∧ b + 1 + 2 ≤ a) ∨ (4 ≤ b + 1 ∧ a + 2 ≤ b + 1)) := by omega
        rw [std_agg_step hna hcap hXns hXnf, std_agg_step hna hcap hYns hYnf]
        have ih1 := ih (a + 1) b
        have ih2 := ih a (b + 1)
        nlinarith [mul_nonneg hp0 (sub_nonneg.2 ih1),
          mul_nonneg (sub_nonneg.2 hp1) (sub_nonneg.2 ih2)]

theorem std_mono_weak (hna : fmt.noAdRule = false) (hcap : fmt.capPoints = false)
    {p q : ℚ} (hp0 : 0 ≤ p) (hpq : p ≤ q) (hq1 : q ≤ 1) :
    ∀ n a b, probabilityServerWinsGame n ⟨a, b, fmt⟩ 1 p ≤
      probabilityServerWinsGame n ⟨a, b, fmt⟩ 1 q := by
  intro n
  induction n with
  | zero =>
    intro a b
    rw [std_agg_zero, std_agg_zero, std_outcome_eval hna, std_outcome_eval hna]
    by_cases hd : a = b ∧ 3 ≤ a
    · rw [if_pos hd, if_pos hd]
      exact deuceWin_mono hp0 hpq hq1
    · rw [if_neg hd, if_neg hd]
  | succ m ih =>
    intro a b
    by_cases hd : a = b ∧ 3 ≤ a
    · have hstop : gameStop ⟨a, b, fmt⟩ = true := (std_stop_iff hna _ _).mpr hd
      rw [std_agg_stopped (Or.inl hstop), std_agg_stopped (Or.inl hstop),
        std_outcome_eval hna, std_outcome_eval hna, if_pos hd, if_pos hd]
      exact deuceWin_mono hp0 hpq hq1
    · by_cases hf : (4 ≤ a ∧ b + 2 ≤ a) ∨ (4 ≤ b ∧ a + 2 ≤ b)
      · have hfin : (⟨a, b, fmt⟩ : GameScore).isFinal = true :=
          (std_isFinal_iff hna _ _).mpr hf
        rw [std_agg_stopped (Or.inr hfin), std_agg_stopped (Or.inr hfin),
          std_outcome_eval hna, std_outcome_eval hna, if_neg hd, if_neg hd]
      · rw [std_agg_step hna hcap hd hf, std_agg_step hna hcap hd hf]
        have ih1 := ih (a + 1) b
        have ih2 := ih a (b + 1)
        have hdomq := std_dominance hna hcap (le_trans hp0 hpq) hq1 m a b
        nlinarith [mul_nonneg hp0 (sub_nonneg.2 ih1),
          mul_nonneg (sub_nonneg.2 (le_trans hpq hq1)) (sub_nonneg.2 ih2),
          mul_nonneg (sub_nonneg.2 hpq) (sub_nonneg.2 hdomq)]

theorem std_valid_step {a b : ℕ} (hval : GameScore.isValidScore a b = true)
    (hnf : ¬((4 ≤ a ∧ b + 2 ≤ a) ∨ (4 ≤ b ∧ a + 2 ≤ b))) :
    GameScore.isValidScore (a + 1) b = true ∧ GameScore.isValidScore a (b + 1) = true := by
  rw [gameValid_iff_winBy2, winBy2Valid_iff] at hval ⊢
  rw [gameValid_iff_winBy2, winBy2Valid_iff]
  omega

theorem std_gameDepth_eval (hna : fmt.noAdRule = false) (a b : ℕ) :
    gameDepth ⟨a, b, fmt⟩ =
      if (a = b ∧ 3 ≤ a) ∨ ((4 ≤ a ∧ b + 2 ≤ a) ∨ (4 ≤ b ∧ a + 2 ≤ b)) then 0
      else if 3 ≤ a ∧ 3 ≤ b then 1 else 8 - (a + b) := by
  have h1 : (gameStop ⟨a, b, fmt⟩ || (⟨a, b, fmt⟩ : GameScore).isFinal) = true ↔
      ((a = b ∧ 3 ≤ a) ∨ ((4 ≤ a ∧ b + 2 ≤ a) ∨ (4 ≤ b ∧ a + 2 ≤ b))) := by
    rw [Bool.or_eq_true, std_stop_iff hna, std_isFinal_iff hna]
  by_cases h : (a = b ∧ 3 ≤ a) ∨ ((4 ≤ a ∧ b + 2 ≤ a) ∨ (4 ≤ b ∧ a + 2 ≤ b))
  · rw [if_pos h]
    unfold gameDepth
    rw [if_pos (h1.mpr h)]
  · rw [if_neg h]
    unfold gameDepth
    rw [if_neg (fun hc => h (h1.mp hc))]

theorem std_gameDepth_le8 (hna : fmt.noAdRule = false) (a b : ℕ) :
    gameDepth ⟨a, b, fmt⟩ ≤ 8 := by
  rw [std_gameDepth_eval hna]
  split_ifs <;> omega

theorem std_gameDepth_child (hna : fmt.noAdRule = false) {a b : ℕ}
    (hval : GameScore.isValidScore a b = true)
    (hnd : ¬(a = b ∧ 3 ≤ a))
    (hnf : ¬((4 ≤ a ∧ b + 2 ≤ a) ∨ (4 ≤ b ∧ a + 2 ≤ b))) :
    gameDepth ⟨a + 1, b, fmt⟩ < gameDepth ⟨a, b, fmt⟩ ∧
      gameDepth ⟨a, b + 1, fmt⟩ < gameDepth ⟨a, b, fmt⟩ := by
  rw [gameValid_iff_winBy2, winBy2Valid_iff] at hval
  rw [std_gameDepth_eval hna, std_gameDepth_eval hna, std_gameDepth_eval hna]
  split_ifs <;> omega

theorem std_lt_one (hna : fmt.noAdRule = false) (hcap : fmt.capPoints = false)
    {q : ℚ} (hq0 : 0 ≤ q) (hq1 : q < 1) :
    ∀ n a b, ¬(4 ≤ a ∧ b + 2 ≤ a) →
      probabilityServerWinsGame n ⟨a, b, fmt⟩ 1 q < 1 := by
  intro n
  induction n with
  | zero =>
    intro a b hns
    rw [std_agg_zero, std_outcome_eval hna]
    by_cases hd : a = b ∧ 3 ≤ a
    · rw [if_pos hd]
      exact deuceWin_lt_one hq1
    · rw [if_neg hd, if_neg hns]
      norm_num
  | succ m ih =>
    intro a b hns
    by_cases hd : a = b ∧ 3 ≤ a
    · rw [std_agg_stopped (Or.inl ((std_stop_iff hna a b).mpr hd)),
        std_outcome_eval hna, if_pos hd]
      exact deuceWin_lt_one hq1
    · by_cases hof : 4 ≤ b ∧ a + 2 ≤ b
      · rw [std_agg_stopped (Or.inr ((std_isFinal_iff hna a b).mpr (Or.inr hof))),
          std_outcome_eval hna, if_neg hd, if_neg hns]
        norm_num
      · have hnf : ¬((4 ≤ a ∧ b + 2 ≤ a) ∨ (4 ≤ b ∧ a + 2 ≤ b)) := by
          rintro (h | h)
          exacts [hns h, hof h]
        rw [std_agg_step hna hcap hd hnf]
        have hS1le := (std_agg_range hcap (⟨a + 1, b, fmt⟩ : GameScore) rfl hq0 (le_of_lt hq1) m).2
        have hS2lt := ih a (b + 1) (fun h => hns ⟨h.1, by omega⟩)
        have h1q : (0 : ℚ) < 1 - q := by linarith
        linarith [mul_nonneg hq0 (sub_nonneg.2 hS1le), mul_lt_mul_of_pos_left hS2lt h1q]

theorem std_pos (hna : fmt.noAdRule = false) (hcap : fmt.capPoints = false)
    {q : ℚ} (hq0 : 0 < q) (hq1 : q < 1) :
    ∀ n a b, GameScore.isValidScore a b = true → ¬(4 ≤ b ∧ a + 2 ≤ b) →
      gameDepth ⟨a, b, fmt⟩ ≤ n →
      0 < probabilityServerWinsGame n ⟨a, b, fmt⟩ 1 q := by
  intro n
  induction n with
  | zero =>
    intro a b hval hno hdep
    rw [std_agg_zero, std_outcome_eval hna]
    by_cases hd : a = b ∧ 3 ≤ a
    · rw [if_pos hd]
      exact deuceWin_pos hq0
    · have hsf : 4 ≤ a ∧ b + 2 ≤ a := by
        by_contra hsf
        rw [std_gameDepth_eval hna, if_neg (by omega)] at hdep
        rw [gameValid_iff_winBy2, winBy2Valid_iff] at hval
        split_ifs at hdep <;> omega
      rw [if_neg hd, if_pos hsf]
      norm_num
  | succ m ih =>
    intro a b hval hno hdep
    by_cases hd : a = b ∧ 3 ≤ a
    · rw [std_agg_stopped (Or.inl ((std_stop_iff hna a b).mpr hd)),
        std_outcome_eval hna, if_pos hd]
      exact deuceWin_pos hq0
    · by_cases hsf : 4 ≤ a ∧ b + 2 ≤ a
      · rw [std_agg_stopped (Or.inr ((std_isFinal_iff hna a b).mpr (Or.inl hsf))),
          std_outcome_eval hna, if_neg hd, if_pos hsf]
        norm_num
      · have hnf : ¬((4 ≤ a ∧ b + 2 ≤ a) ∨ (4 ≤ b ∧ a + 2 ≤ b)) := by
          rintro (h | h)
          exacts [hsf h, hno h]
        rw [std_agg_step hna hcap hd hnf]
        have hdc := std_gameDepth_child hna hval hd hnf
        have hS1 : 0 < probabilityServerWinsGame m ⟨a + 1, b, fmt⟩ 1 q := by
          refine ih (a + 1) b (std_valid_step hval hnf).1 (fun h => hno ⟨h.1, by omega⟩) ?_
          omega
        have hS2nn : 0 ≤ probabilityServerWinsGame m ⟨a, b + 1, fmt⟩ 1 q :=
          (std_agg_range hcap (⟨a, b + 1, fmt⟩ : GameScore) rfl (le_of_lt hq0) (le_of_lt hq1) m).1
        have h1q : (0 : ℚ) ≤ 1 - q := by linarith
        linarith [mul_pos hq0 hS1, mul_nonneg h1q hS2nn]

theorem std_strict_dominance (hna : fmt.noAdRule = false) (hcap : fmt.capPoints = false)
    {q : ℚ} (hq0 : 0 < q) (hq1 : q < 1) :
    ∀ n a b, GameScore.isValidScore a b = true → ¬(a = b ∧ 3 ≤ a) →
      ¬((4 ≤ a ∧ b + 2 ≤ a) ∨ (4 ≤ b ∧ a + 2 ≤ b)) → gameDepth ⟨a, b, fmt⟩ ≤ n →
      probabilityServerWinsGame n ⟨a, b + 1, fmt⟩ 1 q <
        probabilityServerWinsGame n ⟨a + 1, b, fmt⟩ 1 q := by
  intro n
  induction n with
  | zero =>
    intro a b hval hnd hnf hdep
    exfalso
    rw [std_gameDepth_eval hna,
      if_neg (show ¬((a = b ∧ 3 ≤ a) ∨ ((4 ≤ a ∧ b + 2 ≤ a) ∨ (4 ≤ b ∧ a + 2 ≤ b)))
        from fun h => h.elim hnd hnf)] at hdep
    rw [gameValid_iff_winBy2, winBy2Valid_iff] at hval
    split_ifs at hdep <;> omega
  | succ m ih =>
    intro a b hval hnd hnf hdep
    by_cases hsX : 4 ≤ a + 1 ∧ b + 2 ≤ a + 1
    · have hX : probabilityServerWinsGame (m + 1) ⟨a + 1, b, fmt⟩ 1 q = 1 := by
        rw [std_agg_stopped (Or.inr ((std_isFinal_iff hna _ _).mpr (Or.inl hsX))),
          std_outcome_eval hna, if_neg (show ¬(a + 1 = b ∧ 3 ≤ a + 1) by omega), if_pos hsX]
      rw [hX]
      exact std_lt_one hna hcap (le_of_lt hq0) hq1 (m + 1) a (b + 1)
        (fun h => hnf (Or.inl ⟨h.1, by omega⟩))
    · by_cases hdX : a + 1 = b ∧ 3 ≤ a + 1
      · have hofY : 4 ≤ b + 1 ∧ a + 2 ≤ b + 1 := by omega
        have hY : probabilityServerWinsGame (m + 1) ⟨a, b + 1, fmt⟩ 1 q = 0 := by
          rw [std_agg_stopped (Or.inr ((std_isFinal_iff hna _ _).mpr (Or.inr hofY))),
            std_outcome_eval hna, if_neg (show ¬(a = b + 1 ∧ 3 ≤ a) by omega),
            if_neg (show ¬(4 ≤ a ∧ b + 1 + 2 ≤ a) by omega)]
        have hX : probabilityServerWinsGame (m + 1) ⟨a + 1, b, fmt⟩ 1 q =
            q ^ 2 / (1 - 2 * q * (1 - q)) := by
          rw [std_agg_stopped (Or.inl ((std_stop_iff hna _ _).mpr hdX)),
            std_outcome_eval hna, if_pos hdX]
        rw [hX, hY]
        exact deuceWin_pos hq0
      · have hXnf : ¬((4 ≤ a + 1 ∧ b + 2 ≤ a + 1) ∨ (4 ≤ b ∧ a + 1 + 2 ≤ b)) := by
          rintro (h | h)
          · exact hsX h
          · exact hnf (Or.inr ⟨h.1, by omega⟩)
        by_cases hoY : 4 ≤ b + 1 ∧ a + 2 ≤ b + 1
        · have hY : probabilityServerWinsGame (m + 1) ⟨a, b + 1, fmt⟩ 1 q = 0 := by
            rw [std_agg_stopped (Or.inr ((std_isFinal_iff hna _ _).mpr (Or.inr hoY))),
              std_outcome_eval hna, if_neg (show ¬(a = b + 1 ∧ 3 ≤ a) by omega),
              if_neg (show ¬(4 ≤ a ∧ b + 1 + 2 ≤ a) by omega)]
          rw [hY]
          refine std_pos hna hcap hq0 hq1 (m + 1) (a + 1) b (std_valid_step hval hnf).1
            (fun h => hnf (Or.inr ⟨h.1, by omega⟩)) ?_
          have := (std_gameDepth_child hna hval hnd hnf).1
          omega
        · have hYnd : ¬(a = b + 1 ∧ 3 ≤ a) := by omega
          have hYnf : ¬((4 ≤ a ∧ b + 1 + 2 ≤ a) ∨ (4 ≤ b + 1 ∧ a + 2 ≤ b + 1)) := by
            rintro (h | h)
            · exact hnf (Or.inl ⟨h.1, by omega⟩)
            · exact hoY h
          rw [std_agg_step hna hcap (by omega) hXnf, std_agg_step hna hcap hYnd hYnf]
          have hstrict : probabilityServerWinsGame m ⟨a + 1, b + 1, fmt⟩ 1 q <
              probabilityServerWinsGame m ⟨a + 1 + 1, b, fmt⟩ 1 q := by
            refine ih (a + 1) b (std_valid_step hval hnf).1 (by omega) hXnf ?_
            have := (std_gameDepth_child hna hval hnd hnf).1
            omega
          have hweak : probabilityServerWinsGame m ⟨a, b + 1 + 1, fmt⟩ 1 q ≤
              probabilityServerWinsGame m ⟨a + 1, b + 1, fmt⟩ 1 q :=
            std_dominance hna hcap (le_of_lt hq0) (le_of_lt hq1) m a (b + 1)
          nlinarith [mul_pos hq0 (sub_pos.2 hstrict),
            mul_nonneg (show (0 : ℚ) ≤ 1 - q by linarith) (sub_nonneg.2 hweak)]

theorem std_valid_symm (a b : ℕ) :
    GameScore.isValidScore b a = true ↔ GameScore.isValidScore a b = true := by
  rw [gameValid_iff_winBy2, winBy2Valid_iff, gameValid_iff_winBy2, winBy2Valid_iff]
  omega

theorem std_strictMono_core (hna : fmt.noAdRule = false) (hcap : fmt.capPoints = false)
    {a b : ℕ} (hval : GameScore.isValidScore a b = true)
    (hnf : ¬((4 ≤ a ∧ b + 2 ≤ a) ∨ (4 ≤ b ∧ a + 2 ≤ b)))
    {p q : ℚ} (hp0 : 0 < p) (hpq : p < q) (hq1 : q < 1)
    {n : ℕ} (hfuel : 9 ≤ n) :
    probabilityServerWinsGame n ⟨a, b, fmt⟩ 1 p <
      probabilityServerWinsGame n ⟨a, b, fmt⟩ 1 q := by
  by_cases hd : a = b ∧ 3 ≤ a
  · rw [std_agg_stopped (Or.inl ((std_stop_iff hna a b).mpr hd)),
      std_agg_stopped (Or.inl ((std_stop_iff hna a b).mpr hd)),
      std_outcome_eval hna, std_outcome_eval hna, if_pos hd, if_pos hd]
    exact deuceWin_strictMono hp0 hpq hq1
  · cases n with
    | zero => omega
    | succ m =>
      rw [std_agg_step hna hcap hd hnf, std_agg_step hna hcap hd hnf]
      have hm1 := std_mono_weak hna hcap (le_of_lt hp0) (le_of_lt hpq) (le_of_lt hq1) m (a + 1) b
      have hm2 := std_mono_weak hna hcap (le_of_lt hp0) (le_of_lt hpq) (le_of_lt hq1) m a (b + 1)
      have hstrict := std_strict_dominance hna hcap (lt_trans hp0 hpq) hq1 m a b hval hd hnf
        (le_trans (std_gameDepth_le8 hna a b) (by omega))
      nlinarith [mul_nonneg (le_of_lt hp0) (sub_nonneg.2 hm1),
        mul_nonneg (show (0 : ℚ) ≤ 1 - p by linarith) (sub_nonneg.2 hm2),
        mul_pos (sub_pos.2 hpq) (sub_pos.2 hstrict)]

/-- Claim C9 (corrected): for a valid, not-yet-final starting score under a
format with standard (advantage) scoring and no point capping, and either
serve designation, `probabilityServerWinsGame` is strictly increasing in the
designated server's point-win probability on (0,1), at any generation fuel
at least 9 (enough for the loop to stabilise from any valid start).  Under
the library-default capping format the function is NOT monotone (see the
counterexample from 3-4). -/
theorem claim_C9 (n : ℕ) (s : GameScore) (playerServing : ℕ) (p q : ℚ)
    (hna : s.fmt.noAdRule = false) (hcap : s.fmt.capPoints = false)
    (hval : GameScore.isValidScore s.p1 s.p2 = true)
    (hfin : s.isFinal = false)
    (hsrv : playerServing = 1 ∨ playerServing = 2)
    (hfuel : 9 ≤ n)
    (hp0 : 0 < p) (hpq : p < q) (hq1 : q < 1) :
    probabilityServerWinsGame n s playerServing p <
      probabilityServerWinsGame n s playerServing q := by
  obtain ⟨a, b, fv⟩ := s
  have hnf : ¬((4 ≤ a ∧ b + 2 ≤ a) ∨ (4 ≤ b ∧ a + 2 ≤ b)) :=
    (std_isFinal_false_iff hna a b).mp hfin
  rcases hsrv with rfl | rfl
  · exact std_strictMono_core hna hcap hval hnf hp0 hpq hq1 hfuel
  · have hswap : ∀ r : ℚ, probabilityServerWinsGame n ⟨a, b, fv⟩ 2 r =
        probabilityServerWinsGame n ⟨b, a, fv⟩ 1 r := fun r =>
      probabilityServerWinsGame_swap n ⟨b, a, fv⟩ r
    rw [hswap p, hswap q]
    exact std_strictMono_core hna hcap ((std_valid_symm a b).mpr hval)
      (fun h => hnf h.symm) hp0 hpq hq1 hfuel

/-- Witness for C9: from a blank game under the no-capping standard format,
the server-1 win probability strictly increases from p = 1/3 to p = 1/2. -/
theorem claim_C9_witness :
    probabilityServerWinsGame 9 ⟨0, 0, { defaultFormat with capPoints := false }⟩ 1 (1/3) <
      probabilityServerWinsGame 9 ⟨0, 0, { defaultFormat with capPoints := false }⟩ 1 (1/2) :=
  claim_C9 9 ⟨0, 0, { defaultFormat with capPoints := false }⟩ 1 (1/3) (1/2)
    (by decide) (by decide) (by decide) (by decide) (Or.inl rfl) (by norm_num)
    (by norm_num) (by norm_num) (by norm_num)

/-- Counterexample to C9 as stated: under the library-default format
(capPoints = true) from the valid, non-final advantage score 3-4, the
aggregator is NOT strictly increasing on (0,1): it evaluates to 1/4 at
p = 1/2 but only 9/40 at p = 3/4. -/
theorem claim_C9_counterexample :
    GameScore.isValidScore 3 4 = true ∧
    (GameScore.build 3 4 defaultFormat).isFinal = false ∧
    ((0 : ℚ) < 1/2 ∧ (1/2 : ℚ) < 3/4 ∧ (3/4 : ℚ) < 1) ∧
    probabilityServerWinsGame 9 (GameScore.build 3 4 defaultFormat) 1 (1/2) = 1/4 ∧
    probabilityServerWinsGame 9 (GameScore.build 3 4 defaultFormat) 1 (3/4) = 9/40 ∧
    ¬(probabilityServerWinsGame 9 (GameScore.build 3 4 defaultFormat) 1 (1/2) <
        probabilityServerWinsGame 9 (GameScore.build 3 4 defaultFormat) 1 (3/4)) := by
  have hgen : GamePath.generateAllPaths 9 (GameScore.build 3 4 defaultFormat) =
      [[⟨3, 4, defaultFormat⟩, ⟨3, 3, defaultFormat⟩],
       [⟨3, 4, defaultFormat⟩, ⟨3, 5, defaultFormat⟩]] := by decide
  have hd33 : (⟨3, 3, defaultFormat⟩ : GameScore).isDeuce = true := by decide
  have hd35 : (⟨3, 5, defaultFormat⟩ : GameScore).isDeuce = false := by decide
  have hw35 : (⟨3, 5, defaultFormat⟩ : GameScore).winner = some 2 := by decide
  have heval : ∀ r : ℚ, probabilityServerWinsGame 9 (GameScore.build 3 4 defaultFormat) 1 r =
      (1 - r) * (r ^ 2 / (1 - 2 * r * (1 - r))) := by
    intro r
    have h33 : gameStepFactor 1 r ⟨3, 4, defaultFormat⟩ ⟨3, 3, defaultFormat⟩ = 1 - r := by
      simp [gameStepFactor, GameScore.asPoints]
    have h35 : gameStepFactor 1 r ⟨3, 4, defaultFormat⟩ ⟨3, 5, defaultFormat⟩ = 1 - r := by
      simp [gameStepFactor, GameScore.asPoints]
    have ho33 : gameOutcome 1 r ⟨3, 3, defaultFormat⟩ =
        r ^ 2 / (1 - 2 * r * (1 - r)) := by
      unfold gameOutcome
      rw [hd33]
      simp
    have ho35 : gameOutcome 1 r ⟨3, 5, defaultFormat⟩ = 0 := by
      unfold gameOutcome
      rw [hd35, hw35]
      simp
    have hl1 : (([⟨3, 4, defaultFormat⟩, ⟨3, 3, defaultFormat⟩] :
        List GameScore).getLast?).getD (GameScore.build 3 4 defaultFormat) =
        ⟨3, 3, defaultFormat⟩ := rfl
    have hl2 : (([⟨3, 4, defaultFormat⟩, ⟨3, 5, defaultFormat⟩] :
        List GameScore).getLast?).getD (GameScore.build 3 4 defaultFormat) =
        ⟨3, 5, defaultFormat⟩ := rfl
    unfold probabilityServerWinsGame
    rw [hgen]
    simp only [sumOver, List.map_cons, List.map_nil, List.sum_cons, List.sum_nil,
      chainProd, h33, h35, hl1, hl2, ho33, ho35]
    ring
  refine ⟨by decide, by decide, ⟨by norm_num, by norm_num, by norm_num⟩, ?_, ?_, ?_⟩
  · rw [heval]
    norm_num
  · rw [heval]
    norm_num
  · rw [heval, heval]
    norm_num

end Monotonicity

end TennisLab
